import Mathlib

/-!
# Verification of ZeroTier VL1 `Locator` and `Path` against their specification

Shallow embedding of `src/network-hypervisor/src/vl1/locator.rs` and
`src/zerotier-network-hypervisor/src/vl1/path.rs`.  Machine integers are
modelled as `Nat`/`Int` with explicit reduction modulo `2^64` where the Rust
code wraps; fallible operations return `Except Unit` or `Option`.

Collaborator types that are out of scope of the repository's own sources
(`Buffer`, `Address`, `Endpoint`, `Identity`, `FragmentedPacket`, the protocol
constants) are modelled from the specification and marked as such in their
doc comments.
-/

namespace ZT

/-! ## Byte-level codecs (modelled collaborator: the wire buffer) -/

/-- Big-endian byte encoding of `n` on `k` bytes (the low `8*k` bits of `n`). -/
def toBytesBE : Nat → Nat → List Nat
  | 0, _ => []
  | k + 1, n => toBytesBE k (n / 256) ++ [n % 256]

/-- Big-endian decoding of a byte list. -/
def fromBytesBE (l : List Nat) : Nat :=
  l.foldl (fun a b => a * 256 + b) 0

theorem length_toBytesBE (k n : Nat) : (toBytesBE k n).length = k := by
  induction k generalizing n with
  | zero => rfl
  | succ k ih => simp [toBytesBE, ih]

theorem fromBytesBE_append (l : List Nat) (b : Nat) :
    fromBytesBE (l ++ [b]) = fromBytesBE l * 256 + b := by
  simp [fromBytesBE, List.foldl_append]

theorem fromBytesBE_toBytesBE (k n : Nat) :
    fromBytesBE (toBytesBE k n) = n % 256 ^ k := by
  induction k generalizing n with
  | zero => simp [toBytesBE, fromBytesBE, Nat.mod_one]
  | succ k ih =>
    rw [toBytesBE, fromBytesBE_append, ih]
    rw [pow_succ, Nat.mul_comm (256 ^ k) 256, Nat.mod_mul]
    ring

/-- Structural worker for `varintEnc`; the fuel is an upper bound on the
value, so the fallback branch is never reached. -/
def varintEncAux : Nat → Nat → List Nat
  | 0, n => [n % 128]
  | fuel + 1, n =>
    if n < 128 then [n]
    else (n % 128 + 128) :: varintEncAux fuel (n / 128)

/-- LEB128-style variable-length encoding of an unsigned integer.
Modelled from the spec: the wire codec's "variable-length unsigned integer". -/
def varintEnc (n : Nat) : List Nat := varintEncAux n n

/-- Decode a variable-length integer from the head of a byte list, returning
the value and the number of bytes consumed. -/
def varintDec : List Nat → Option (Nat × Nat)
  | [] => none
  | x :: rest =>
    if x < 128 then some (x, 1)
    else
      match varintDec rest with
      | some (v, k) => some ((x - 128) + 128 * v, k + 1)
      | none => none

theorem varintDecAux_enc (fuel n : Nat) (hf : n ≤ fuel) (s : List Nat) :
    varintDec (varintEncAux fuel n ++ s) = some (n, (varintEncAux fuel n).length) := by
  induction fuel generalizing n with
  | zero =>
    have hn : n = 0 := by omega
    subst hn
    rfl
  | succ fuel ih =>
    by_cases h : n < 128
    · rw [varintEncAux]; simp [h, varintDec]
    · rw [varintEncAux]
      simp only [if_neg h, List.cons_append, List.length_cons]
      rw [varintDec]
      have h128 : ¬ n % 128 + 128 < 128 := by omega
      rw [if_neg h128]
      have hfuel : n / 128 ≤ fuel := by
        have : n / 128 < n := Nat.div_lt_self (by omega) (by omega)
        omega
      rw [ih (n / 128) hfuel]
      have hv : n % 128 + 128 - 128 + 128 * (n / 128) = n := by
        have := Nat.mod_add_div n 128
        omega
      show some (n % 128 + 128 - 128 + 128 * (n / 128), (varintEncAux fuel (n / 128)).length + 1)
        = some (n, (varintEncAux fuel (n / 128)).length + 1)
      rw [hv]

theorem varintDec_enc (n : Nat) (s : List Nat) :
    varintDec (varintEnc n ++ s) = some (n, (varintEnc n).length) :=
  varintDecAux_enc n n (Nat.le_refl n) s

/-! ## The fragment-identity hasher (`PacketIdHasher` in `path.rs`) -/

/-- The modulus of 64-bit wrapping arithmetic. -/
def U64 : Nat := 2 ^ 64

/-- `PacketIdHasher::write_u64`: `x = state wrapping_add i`, then the
xorshift cascade `x ^= x << 13; x ^= x >> 7; x ^= x << 17` on 64 bits. -/
def PacketIdHasher.write_u64 (state i : Nat) : Nat :=
  let x := (state + i) % U64
  let x := (x ^^^ (x <<< 13)) % U64
  let x := (x ^^^ (x >>> 7)) % U64
  let x := (x ^^^ (x <<< 17)) % U64
  x

/-- `PacketIdHasher::finish` returns the state unchanged. -/
def PacketIdHasher.finish (state : Nat) : Nat := state

/-- `impl BuildHasher for PacketIdHasher`: `build_hasher` returns `Self(0)` —
the freshly built hasher's state is `0`, whatever seed the `PacketIdHasher`
stored at `Path` construction. -/
def PacketIdHasher.build_hasher (_seed : Nat) : Nat := 0

/-- The hash value the `fragmented_packets` table computes for a 64-bit packet
identifier `key` on a `Path` whose hasher was seeded with `seed`: Rust's
`HashMap` calls `build_hasher`, feeds the key via `write_u64`, and reads
`finish`. -/
def packetIdHash (seed key : Nat) : Nat :=
  PacketIdHasher.finish (PacketIdHasher.write_u64 (PacketIdHasher.build_hasher seed) key)

theorem packetIdHash_ignores_seed (s₁ s₂ key : Nat) :
    packetIdHash s₁ key = packetIdHash s₂ key := rfl

/-! ## Address (modelled collaborator) -/

/-- Modelled from the spec: structural validity of a 40-bit ZeroTier address —
an address is invalid ("reserved value") if it is zero or its leading byte is
the reserved prefix `0xff`. -/
def addrValid (n : Nat) : Bool :=
  decide (n ≠ 0) && decide (n < 2 ^ 40) && decide (n / 2 ^ 32 ≠ 0xff)

/-- Modelled from the spec: a ZeroTier address, a structurally valid 40-bit
value with fixed-width (5-byte) marshal/unmarshal. -/
structure Address where
  val : Nat
  valid : addrValid val = true

theorem Address.ext_val {a b : Address} (h : a.val = b.val) : a = b := by
  cases a; cases b; simp_all

instance : DecidableEq Address := fun a b =>
  if h : a.val = b.val then isTrue (Address.ext_val h)
  else isFalse (fun hab => h (congrArg Address.val hab))

/-- Fixed-width 5-byte big-endian encoding of an address. -/
def Address.marshalBytes (a : Address) : List Nat := toBytesBE 5 a.val

/-- Build an address from a raw 40-bit value, `none` if structurally invalid. -/
def Address.ofVal (n : Nat) : Option Address :=
  if h : addrValid n = true then some ⟨n, h⟩ else none

/-! ## Wire buffer and reads (modelled collaborator) -/

/-- Modelled from the spec: the wire buffer — an append-only byte vector with
a fixed capacity; appends report an error on overflow, reads report an error
on underflow. -/
structure Buffer where
  cap : Nat
  data : List Nat

def Buffer.new (cap : Nat) : Buffer := ⟨cap, []⟩

def Buffer.append_bytes (b : Buffer) (bs : List Nat) : Except Unit Buffer :=
  if b.data.length + bs.length ≤ b.cap then .ok ⟨b.cap, b.data ++ bs⟩ else .error ()

def Buffer.append_u64 (b : Buffer) (n : Nat) : Except Unit Buffer :=
  b.append_bytes (toBytesBE 8 n)

def Buffer.append_varint (b : Buffer) (n : Nat) : Except Unit Buffer :=
  b.append_bytes (varintEnc n)

/-- Read `n` raw bytes at cursor `c`; data-format error on underflow. -/
def readBytes (d : List Nat) (c n : Nat) : Except Unit (List Nat × Nat) :=
  if c + n ≤ d.length then .ok ((d.drop c).take n, c + n) else .error ()

/-- Read an 8-byte big-endian unsigned integer at cursor `c`. -/
def readU64 (d : List Nat) (c : Nat) : Except Unit (Nat × Nat) :=
  match readBytes d c 8 with
  | .ok (bs, c') => .ok (fromBytesBE bs, c')
  | .error e => .error e

/-- Read a variable-length unsigned integer at cursor `c`. -/
def readVarint (d : List Nat) (c : Nat) : Except Unit (Nat × Nat) :=
  match varintDec (d.drop c) with
  | some (v, k) => .ok (v, c + k)
  | none => .error ()

/-- `Address::unmarshal`: read 5 bytes; `some` address if structurally valid,
`none` (without a read error) otherwise. -/
def Address.unmarshal (d : List Nat) (c : Nat) : Except Unit (Option Address × Nat) :=
  match readBytes d c 5 with
  | .ok (bs, c') => .ok (Address.ofVal (fromBytesBE bs), c')
  | .error e => .error e

/-! ## Endpoint (modelled collaborator) -/

/-- Modelled from the spec: an Endpoint is an opaque, totally ordered,
self-describing wire value; we model it as a natural number with its
variable-length integer encoding. -/
abbrev Endpoint := Nat

def Endpoint.marshalBytes (e : Endpoint) : List Nat := varintEnc e

def Endpoint.unmarshal (d : List Nat) (c : Nat) : Except Unit (Endpoint × Nat) :=
  readVarint d c

/-! ## Identity (modelled collaborator) -/

/-- Modelled from the spec: the identity collaborator — `address()`,
`sign(bytes) -> signature or failure`, `verify(bytes, signature) -> bool`. -/
structure Identity where
  address : Address
  sign : List Nat → Option (List Nat)
  verify : List Nat → List Nat → Bool

/-! ## Locator (`locator.rs`) -/

/-- `Vec::sort_unstable` on the endpoint list (total order on endpoints). -/
def sortEndpoints (l : List Endpoint) : List Endpoint :=
  List.insertionSort (· ≤ ·) l

/-- `Vec::dedup`: remove consecutive duplicate elements. -/
def dedupConsec : List Endpoint → List Endpoint
  | [] => []
  | [a] => [a]
  | a :: b :: r => if a = b then dedupConsec (b :: r) else a :: dedupConsec (b :: r)

/-- Reinterpretation of an `i64` as a `u64` (for `append_u64(ts as u64)`). -/
def i64ToU64 (t : Int) : Nat := (t % (2 ^ 64 : Int)).toNat

/-- Reinterpretation of a `u64` as an `i64` (for `read_u64 as i64`). -/
def u64ToI64 (n : Nat) : Int :=
  if n < 2 ^ 63 then (n : Int) else (n : Int) - 2 ^ 64

/-- The `Locator` struct: subject, signer, timestamp, endpoints, signature. -/
structure Locator where
  subject : Address
  signer : Address
  timestamp : Int
  endpoints : List Endpoint
  signature : List Nat
deriving DecidableEq

/-- Marshal each endpoint in order (`for e in self.endpoints { e.marshal(buf)?; }`). -/
def appendEndpoints : List Endpoint → Buffer → Except Unit Buffer
  | [], b => .ok b
  | e :: es, b =>
    match b.append_varint e with
    | .ok b' => appendEndpoints es b'
    | .error x => .error x

/-- `Locator::marshal_internal`: subject, signer, timestamp as u64, endpoint
count varint, each endpoint, a zero extension-length varint, and — unless
`exclude_signature` — the signature length varint and signature bytes. -/
def Locator.marshal_internal (loc : Locator) (buf : Buffer) (exclude_signature : Bool) :
    Except Unit Buffer := do
  let buf ← buf.append_bytes loc.subject.marshalBytes
  let buf ← buf.append_bytes loc.signer.marshalBytes
  let buf ← buf.append_u64 (i64ToU64 loc.timestamp)
  let buf ← buf.append_varint loc.endpoints.length
  let buf ← appendEndpoints loc.endpoints buf
  let buf ← buf.append_varint 0
  if exclude_signature then
    pure buf
  else do
    let buf ← buf.append_varint loc.signature.length
    buf.append_bytes loc.signature

/-- `Locator::marshal` (public): marshal including the signature. -/
def Locator.marshal (loc : Locator) (buf : Buffer) : Except Unit Buffer :=
  loc.marshal_internal buf false

/-- `Locator::create`: normalize endpoints (sort then dedup), serialize the
signature-less form, and sign it; `None` on serialization overflow or if the
identity cannot sign. -/
def Locator.create (cap : Nat) (signer_identity : Identity) (subject : Address)
    (ts : Int) (endpoints : List Endpoint) : Option Locator :=
  let loc : Locator :=
    { subject := subject
      signer := signer_identity.address
      timestamp := ts
      endpoints := dedupConsec (sortEndpoints endpoints)
      signature := [] }
  match loc.marshal_internal (Buffer.new cap) true with
  | .error _ => none
  | .ok buf =>
    (signer_identity.sign buf.data).map (fun sig => { loc with signature := sig })

/-- `Locator::is_proxy_signed`: subject differs from signer. -/
def Locator.is_proxy_signed (loc : Locator) : Bool :=
  decide (loc.subject ≠ loc.signer)

/-- `Locator::should_replace`. -/
def Locator.should_replace (a b : Locator) : Bool :=
  if a.is_proxy_signed = b.is_proxy_signed then
    decide (a.timestamp > b.timestamp)
  else
    b.is_proxy_signed

/-- `Locator::verify_signature`: re-serialize the signature-less form and ask
the identity to verify, but only if the identity's address matches `signer`;
false on serialization failure or address mismatch. -/
def Locator.verify_signature (cap : Nat) (loc : Locator) (signer_identity : Identity) : Bool :=
  match loc.marshal_internal (Buffer.new cap) true with
  | .ok buf =>
    if signer_identity.address = loc.signer then
      signer_identity.verify buf.data loc.signature
    else
      false
  | .error _ => false

/-- Read `n` endpoints in sequence. -/
def readEndpoints (d : List Nat) : Nat → Nat → Except Unit (List Endpoint × Nat)
  | 0, c => .ok ([], c)
  | n + 1, c =>
    match Endpoint.unmarshal d c with
    | .ok (e, c') =>
      match readEndpoints d n c' with
      | .ok (es, c'') => .ok (e :: es, c'')
      | .error x => .error x
    | .error x => .error x

/-- `Locator::unmarshal`: subject and signer addresses (error if either is
structurally invalid), timestamp, endpoint count and endpoints, skip the
extension field, then the signature. -/
def Locator.unmarshal (d : List Nat) (c : Nat) : Except Unit (Locator × Nat) := do
  let (subjectOpt, c) ← Address.unmarshal d c
  let (signerOpt, c) ← Address.unmarshal d c
  match subjectOpt, signerOpt with
  | some subject, some signer => do
    let (tsu, c) ← readU64 d c
    let (epCount, c) ← readVarint d c
    let (endpoints, c) ← readEndpoints d epCount c
    let (extLen, c) ← readVarint d c
    let c := c + extLen
    let (sigLen, c) ← readVarint d c
    let (signature, c) ← readBytes d c sigLen
    .ok (⟨subject, signer, u64ToI64 tsu, endpoints, signature⟩, c)
  | _, _ => .error ()

/-- Rust's `Ord::cmp` on integers, written out. -/
def natCmp (a b : Nat) : Ordering :=
  if a < b then .lt else if b < a then .gt else .eq

def intCmp (a b : Int) : Ordering :=
  if a < b then .lt else if b < a then .gt else .eq

/-- The lexicographic step of Rust's `cmp` chains: keep the first comparison
unless it is `Equal`, in which case defer to the next one. -/
def ordLexStep (o t : Ordering) : Ordering :=
  match o with
  | .eq => t
  | o' => o'

/-- Lexicographic comparison of endpoint sequences (Rust `Vec<Endpoint>::cmp`). -/
def epListCmp : List Endpoint → List Endpoint → Ordering
  | [], [] => .eq
  | [], _ :: _ => .lt
  | _ :: _, [] => .gt
  | a :: as', b :: bs' => ordLexStep (natCmp a b) (epListCmp as' bs')

/-- `impl Ord for Locator`: subject, then timestamp, then signer, then the
endpoint sequence. The `signature` field does not participate. -/
def Locator.cmp (a b : Locator) : Ordering :=
  ordLexStep (natCmp a.subject.val b.subject.val)
    (ordLexStep (intCmp a.timestamp b.timestamp)
      (ordLexStep (natCmp a.signer.val b.signer.val)
        (epListCmp a.endpoints b.endpoints)))

/-! ## FragmentedPacket (modelled collaborator) and Path (`path.rs`) -/

/-- An opaque fragment payload (`PooledPacketBuffer`). -/
abbrev Packet := Nat

/-- Modelled from the spec: an in-progress packet assembly — the creation
time, the fragments received so far keyed by fragment number, and the
expected fragment count (the per-fragment mechanics of `FragmentedPacket`
are outside the sources in scope; only the creation-time / completion policy
matters here). -/
structure FragmentedPacket where
  ts_ticks : Int
  frags : List (Nat × Packet)
  expecting : Nat
deriving DecidableEq

/-- Modelled from the spec: a new, empty assembly created at `ts`. -/
def FragmentedPacket.new (ts : Int) : FragmentedPacket :=
  ⟨ts, [], 0⟩

/-- Modelled from the spec: feed one fragment into an assembly; record it
under its fragment number (first arrival wins), remember the expected count,
and report `true` exactly when every expected fragment `0..expecting-1` is
present. -/
def FragmentedPacket.add_fragment (fp : FragmentedPacket) (packet : Packet)
    (fragment_no fragment_expecting_count : Nat) : FragmentedPacket × Bool :=
  let frags :=
    if fp.frags.any (fun f => f.1 == fragment_no) then fp.frags
    else (fragment_no, packet) :: fp.frags
  let fp' : FragmentedPacket := ⟨fp.ts_ticks, frags, fragment_expecting_count⟩
  (fp', decide (0 < fragment_expecting_count) &&
    (List.range fragment_expecting_count).all (fun i => frags.any (fun f => f.1 == i)))

/-- The reassembly table, modelled as an association list from 64-bit packet
identifiers to assemblies (the `HashMap` of `path.rs`). -/
abbrev FragTable := List (Nat × FragmentedPacket)

def FragTable.keys (t : FragTable) : List Nat := t.map Prod.fst

/-- `HashMap::get`. -/
def FragTable.lookup (t : FragTable) (k : Nat) : Option FragmentedPacket :=
  (t.find? (fun e => e.1 == k)).map Prod.snd

/-- `HashMap::remove` (the key occurs at most once in a well-formed table). -/
def FragTable.removeKey (t : FragTable) (k : Nat) : FragTable :=
  t.filter (fun e => decide (e.1 ≠ k))

/-- `HashMap::entry(k).or_insert_with(v)` followed by writing back the updated
value: replace in place if present, append otherwise. -/
def FragTable.upsert (t : FragTable) (k : Nat) (v : FragmentedPacket) : FragTable :=
  if t.any (fun e => e.1 == k) then
    t.map (fun e => if e.1 == k then (k, v) else e)
  else
    t ++ [(k, v)]

/-- The mutable state of a `Path` (atomics and the locked table flattened to
plain fields of a state record). -/
structure PathState where
  endpoint : Nat
  local_socket : Nat
  local_interface : Nat
  internal_instance_id : Nat
  last_send_time_ticks : Int
  last_receive_time_ticks : Int
  create_time_ticks : Int
  fragmented_packets : FragTable
deriving DecidableEq

/-- `entries.sort_unstable_by(|a, b| a.0.cmp(&b.0))`: sort the `(ts, key)`
pairs by creation time. -/
def sortEntries (entries : List (Int × Nat)) : List (Int × Nat) :=
  List.insertionSort (fun a b => a.1 ≤ b.1) entries

instance : IsTotal (Int × Nat) (fun a b => a.1 ≤ b.1) :=
  ⟨fun a b => le_total a.1 b.1⟩

instance : IsTrans (Int × Nat) (fun a b => a.1 ≤ b.1) :=
  ⟨fun _ _ _ h1 h2 => le_trans h1 h2⟩

/-- The `(ts_ticks, key)` pairs of the `len / 3` oldest entries (first after
sorting by creation time), as `Path::receive_fragment`'s eviction pass ranks
them. -/
def oldestEntries (tbl : FragTable) : List (Int × Nat) :=
  (sortEntries (tbl.map (fun f => (f.2.ts_ticks, f.1)))).take (tbl.length / 3)

/-- The eviction pass of `Path::receive_fragment`: when the table holds more
than `bound` entries, collect `(ts_ticks, key)` pairs, sort by creation time,
and remove the keys of the first `len / 3` entries. -/
def evictOldest (bound : Nat) (t : FragTable) : FragTable :=
  let fps := t.length
  if bound < fps then
    let entries := sortEntries (t.map (fun f => (f.2.ts_ticks, f.1)))
    (entries.take (fps / 3)).foldl (fun acc e => FragTable.removeKey acc e.2) t
  else
    t

/-- The insert/complete pass of `Path::receive_fragment`:
`fp.entry(packet_id).or_insert_with(FragmentedPacket::new).add_fragment(...)`,
then on completion `fp.remove(&packet_id)` and return the assembly. -/
def processFragment (t : FragTable) (packet_id fragment_no fragment_expecting_count : Nat)
    (packet : Packet) (time_ticks : Int) : FragTable × Option FragmentedPacket :=
  let cur := (FragTable.lookup t packet_id).getD (FragmentedPacket.new time_ticks)
  let r := cur.add_fragment packet fragment_no fragment_expecting_count
  let t' := FragTable.upsert t packet_id r.1
  if r.2 then (FragTable.removeKey t' packet_id, some r.1) else (t', none)

/-- `Path::receive_fragment` (with the sanity bound
`FRAGMENT_MAX_INBOUND_PACKETS_PER_PATH`, a protocol constant outside the
sources in scope, as the parameter `bound`). -/
def Path.receive_fragment (bound : Nat) (st : PathState) (packet_id fragment_no
    fragment_expecting_count : Nat) (packet : Packet) (time_ticks : Int) :
    PathState × Option FragmentedPacket :=
  let t := evictOldest bound st.fragmented_packets
  let r := processFragment t packet_id fragment_no fragment_expecting_count packet time_ticks
  ({ st with fragmented_packets := r.1 }, r.2)

/-- `PathServiceResult`. -/
inductive PathServiceResult where
  | Ok
  | Dead
  | NeedsKeepalive
deriving DecidableEq

/-- The pruning pass of `Path::service`: retain assemblies younger than the
fragment-expiration window. -/
def pruneFrags (fragment_expiration : Int) (tbl : FragTable) (time_ticks : Int) : FragTable :=
  tbl.filter (fun e => decide (time_ticks - e.2.ts_ticks < fragment_expiration))

/-- `Path::service` (with the protocol constants `FRAGMENT_EXPIRATION`,
`PATH_EXPIRATION_TIME` and `PATH_KEEPALIVE_INTERVAL`, defined outside the
sources in scope, as parameters): prune expired assemblies, then classify
liveness from elapsed time alone, refreshing the last-send timestamp exactly
when reporting `NeedsKeepalive`. -/
def Path.service (fragment_expiration path_expiration_time path_keepalive_interval : Int)
    (st : PathState) (time_ticks : Int) : PathState × PathServiceResult :=
  let st := { st with
    fragmented_packets := pruneFrags fragment_expiration st.fragmented_packets time_ticks }
  if time_ticks - st.last_receive_time_ticks < path_expiration_time then
    if time_ticks - st.last_send_time_ticks ≥ path_keepalive_interval then
      ({ st with last_send_time_ticks := time_ticks }, .NeedsKeepalive)
    else
      (st, .Ok)
  else if time_ticks - st.create_time_ticks < path_expiration_time then
    (st, .Ok)
  else
    (st, .Dead)

/-- `Path::log_send_anything`. -/
def Path.log_send_anything (st : PathState) (time_ticks : Int) : PathState :=
  { st with last_send_time_ticks := time_ticks }

/-- `Path::log_receive_anything`. -/
def Path.log_receive_anything (st : PathState) (time_ticks : Int) : PathState :=
  { st with last_receive_time_ticks := time_ticks }

/-! ## Concrete test fixtures (used by witnesses and counterexamples) -/

def addrA : Address := ⟨1, rfl⟩

def addrB : Address := ⟨2, rfl⟩

def addrC : Address := ⟨3, rfl⟩

/-- A self-signed locator of `addrA` with timestamp 0. -/
def locSelfA : Locator :=
  { subject := addrA, signer := addrA, timestamp := 0, endpoints := [], signature := [9] }

/-- A proxy-signed locator for `addrA` (signed by `addrB`) with the maximal
`i64` timestamp. -/
def locProxyA : Locator :=
  { subject := addrA, signer := addrB, timestamp := 2 ^ 63 - 1, endpoints := [], signature := [8] }

/-- Same ordered fields as `locSelfA` but a different signature. -/
def locSelfA' : Locator :=
  { subject := addrA, signer := addrA, timestamp := 0, endpoints := [], signature := [7] }

/-- An identity for `addrA` whose signing function is total and deterministic
and whose verifier accepts everything (the claims under test do not depend on
the cryptographic behavior of the collaborator). -/
def identA : Identity :=
  { address := addrA, sign := fun _ => some [1, 2, 3], verify := fun _ _ => true }

/-- A fixed path state used to instantiate `Path` theorems. -/
def pathSt (ls lr ct : Int) (tbl : FragTable) : PathState :=
  { endpoint := 0, local_socket := 0, local_interface := 0, internal_instance_id := 0,
    last_send_time_ticks := ls, last_receive_time_ticks := lr, create_time_ticks := ct,
    fragmented_packets := tbl }

/-- A four-entry reassembly table with distinct keys and distinct ages. -/
def tbl4 : FragTable :=
  [(10, ⟨100, [], 0⟩), (11, ⟨40, [], 0⟩), (12, ⟨70, [], 0⟩), (13, ⟨55, [], 0⟩)]

/-- Feed a sequence of fragment numbers (all for the same packet identifier,
expected count and arrival tick) through `receive_fragment`, collecting each
call's result. -/
def feedFragments (bound : Nat) (pid exp : Nat) (packetOf : Nat → Packet) (t : Int) :
    PathState → List Nat → PathState × List (Option FragmentedPacket)
  | st, [] => (st, [])
  | st, n :: rest =>
    let r := Path.receive_fragment bound st pid n exp (packetOf n) t
    let res := feedFragments bound pid exp packetOf t r.1 rest
    (res.1, r.2 :: res.2)

/-- The fragment store an assembly holds after the numbers `l` were fed in
order (`add_fragment` conses, so the store is the reverse). -/
def fragsOf (packetOf : Nat → Packet) (l : List Nat) : List (Nat × Packet) :=
  l.reverse.map (fun n => (n, packetOf n))

/-- The canonical-endpoints invariant of the spec: sorted strictly ascending,
hence free of duplicates. -/
def endpointsCanonical : List Endpoint → Bool
  | [] => true
  | [_] => true
  | a :: b :: r => decide (a < b) && endpointsCanonical (b :: r)

/-- A wire image of a locator whose endpoint list is out of order: subject
and signer `addrA`, timestamp 0, endpoints `[5, 3]`, empty extension field,
empty signature. -/
def badBytes : List Nat :=
  [0, 0, 0, 0, 1, 0, 0, 0, 0, 1, 0, 0, 0, 0, 0, 0, 0, 0, 2, 5, 3, 0, 0]

/-- The locator produced by `create 64 identA addrB 0 [5, 3, 3]`. -/
def locW : Locator :=
  { subject := addrB, signer := addrA, timestamp := 0, endpoints := [3, 5],
    signature := [1, 2, 3] }

/-- Like `locSelfA` but with timestamp 1. -/
def locT1 : Locator :=
  { subject := addrA, signer := addrA, timestamp := 1, endpoints := [], signature := [] }

/-- Like `locSelfA` but with timestamp 2. -/
def locT2 : Locator :=
  { subject := addrA, signer := addrA, timestamp := 2, endpoints := [], signature := [] }

/-- The concatenated wire encodings of a list of endpoints. -/
def epsBytes : List Endpoint → List Nat
  | [] => []
  | e :: es => varintEnc e ++ epsBytes es

/-- The byte image `Locator::marshal` produces (signature included): the
fields of §6 of the spec in order, with a zero extension-length field. -/
def encLocFull (loc : Locator) : List Nat :=
  loc.subject.marshalBytes ++
    (loc.signer.marshalBytes ++
      (toBytesBE 8 (i64ToU64 loc.timestamp) ++
        (varintEnc loc.endpoints.length ++
          (epsBytes loc.endpoints ++
            (varintEnc 0 ++
              (varintEnc loc.signature.length ++ loc.signature))))))

/-- The buffer `locW.marshal (Buffer.new 64)` produces. -/
def bufW : Buffer :=
  ⟨64, [0, 0, 0, 0, 2, 0, 0, 0, 0, 1, 0, 0, 0, 0, 0, 0, 0, 0, 2, 3, 5, 0, 3, 1, 2, 3]⟩

/-! ## Theorems -/

section ServiceLemmas

variable (fexp pexp ka : Int) (st : PathState) (t : Int)

theorem service_eq_keepalive (h1 : t - st.last_receive_time_ticks < pexp)
    (h2 : ka ≤ t - st.last_send_time_ticks) :
    Path.service fexp pexp ka st t =
      ({ st with fragmented_packets := pruneFrags fexp st.fragmented_packets t,
                 last_send_time_ticks := t }, .NeedsKeepalive) := by
  simp [Path.service, h1, h2]

theorem service_eq_ok_recent (h1 : t - st.last_receive_time_ticks < pexp)
    (h2 : t - st.last_send_time_ticks < ka) :
    Path.service fexp pexp ka st t =
      ({ st with fragmented_packets := pruneFrags fexp st.fragmented_packets t }, .Ok) := by
  have h2' : ¬ (t - st.last_send_time_ticks ≥ ka) := by omega
  simp [Path.service, h1, h2']

theorem service_eq_ok_grace (h1 : pexp ≤ t - st.last_receive_time_ticks)
    (h2 : t - st.create_time_ticks < pexp) :
    Path.service fexp pexp ka st t =
      ({ st with fragmented_packets := pruneFrags fexp st.fragmented_packets t }, .Ok) := by
  have h1' : ¬ (t - st.last_receive_time_ticks < pexp) := by omega
  simp [Path.service, h1', h2]

theorem service_eq_dead (h1 : pexp ≤ t - st.last_receive_time_ticks)
    (h2 : pexp ≤ t - st.create_time_ticks) :
    Path.service fexp pexp ka st t =
      ({ st with fragmented_packets := pruneFrags fexp st.fragmented_packets t }, .Dead) := by
  have h1' : ¬ (t - st.last_receive_time_ticks < pexp) := by omega
  have h2' : ¬ (t - st.create_time_ticks < pexp) := by omega
  simp [Path.service, h1', h2']

end ServiceLemmas

/-- C1: the claim says the bucket index computed by the Path's
fragment-identity hasher depends on the per-Path random seed — two Paths
constructed with different seeds should hash the same packet identifier to
different values.  The code's `BuildHasher::build_hasher` returns `Self(0)`,
discarding the stored seed, so the hash applied to table keys is a fixed
function of the key alone: seeds 1 and 2 produce the same hash of packet
identifier 42. -/
theorem C1_hash_is_independent_of_seed :
    (1 : Nat) ≠ 2 ∧ packetIdHash 1 42 = packetIdHash 2 42 :=
  ⟨by decide, packetIdHash_ignores_seed 1 2 42⟩

/-- C3: `should_replace` with equal proxy-signed status is exactly the
strict timestamp comparison (so equal timestamps lose in both directions);
with differing status the self-signed locator wins and the proxy-signed one
loses, independent of timestamps. -/
theorem C3_should_replace_spec (a b : Locator) :
    (a.is_proxy_signed = b.is_proxy_signed →
      a.should_replace b = decide (a.timestamp > b.timestamp)) ∧
    (a.is_proxy_signed = false → b.is_proxy_signed = true → a.should_replace b = true) ∧
    (a.is_proxy_signed = true → b.is_proxy_signed = false → a.should_replace b = false) ∧
    (a.is_proxy_signed = b.is_proxy_signed → a.timestamp = b.timestamp →
      a.should_replace b = false ∧ b.should_replace a = false) := by
  refine ⟨?_, ?_, ?_, ?_⟩
  · intro h; simp [Locator.should_replace, h]
  · intro ha hb; simp [Locator.should_replace, ha, hb]
  · intro ha hb; simp [Locator.should_replace, ha, hb]
  · intro h ht
    constructor
    · simp [Locator.should_replace, h, ht]
    · simp [Locator.should_replace, h.symm, ht]

/-- Witness for C3 at concrete locators: a self-signed locator with
timestamp 0 replaces a proxy-signed one with timestamp `i64::MAX`, and not
conversely. -/
theorem C3_should_replace_spec_witness :
    locSelfA.should_replace locProxyA = true ∧ locProxyA.should_replace locSelfA = false :=
  ⟨(C3_should_replace_spec locSelfA locProxyA).2.1 (by decide) (by decide),
   (C3_should_replace_spec locProxyA locSelfA).2.2.1 (by decide) (by decide)⟩

/-- C6: `service` classifies purely from elapsed time — with a recent
receive it reports `NeedsKeepalive` iff the time since the last send is at
least the keepalive interval, setting the last-send timestamp to the call's
`time_ticks` in exactly that case; otherwise a fresh-enough creation time
gives `Ok` and anything else gives `Dead`; and a second call within the same
keepalive interval after a `NeedsKeepalive` reports `Ok`. -/
theorem C6_service_classification (fexp pexp ka : Int) (st : PathState) (t t' : Int) :
    (t - st.last_receive_time_ticks < pexp →
      (((Path.service fexp pexp ka st t).2 = .NeedsKeepalive ↔
          ka ≤ t - st.last_send_time_ticks) ∧
       (ka ≤ t - st.last_send_time_ticks →
          (Path.service fexp pexp ka st t).1.last_send_time_ticks = t) ∧
       (t - st.last_send_time_ticks < ka →
          (Path.service fexp pexp ka st t).2 = .Ok ∧
          (Path.service fexp pexp ka st t).1.last_send_time_ticks
            = st.last_send_time_ticks))) ∧
    (pexp ≤ t - st.last_receive_time_ticks → t - st.create_time_ticks < pexp →
      (Path.service fexp pexp ka st t).2 = .Ok) ∧
    (pexp ≤ t - st.last_receive_time_ticks → pexp ≤ t - st.create_time_ticks →
      (Path.service fexp pexp ka st t).2 = .Dead) ∧
    ((Path.service fexp pexp ka st t).2 = .NeedsKeepalive →
      t' - st.last_receive_time_ticks < pexp → t' - t < ka →
      (Path.service fexp pexp ka (Path.service fexp pexp ka st t).1 t').2 = .Ok) := by
  refine ⟨?_, ?_, ?_, ?_⟩
  · intro h1
    by_cases h2 : ka ≤ t - st.last_send_time_ticks
    · rw [service_eq_keepalive fexp pexp ka st t h1 h2]
      refine ⟨by simp [h2], fun _ => rfl, fun hlt => absurd h2 (by omega)⟩
    · have h2' : t - st.last_send_time_ticks < ka := by omega
      rw [service_eq_ok_recent fexp pexp ka st t h1 h2']
      refine ⟨by simp [h2], fun hge => absurd hge h2, fun _ => ⟨rfl, rfl⟩⟩
  · intro h1 h2
    rw [service_eq_ok_grace fexp pexp ka st t h1 h2]
  · intro h1 h2
    rw [service_eq_dead fexp pexp ka st t h1 h2]
  · intro hres h1' h2'
    by_cases h1 : t - st.last_receive_time_ticks < pexp
    · by_cases h2 : ka ≤ t - st.last_send_time_ticks
      · rw [service_eq_keepalive fexp pexp ka st t h1 h2]
        rw [service_eq_ok_recent fexp pexp ka _ t' (by simpa using h1') (by simpa using h2')]
      · have h2'' : t - st.last_send_time_ticks < ka := by omega
        rw [service_eq_ok_recent fexp pexp ka st t h1 h2''] at hres
        simp at hres
    · by_cases h3 : t - st.create_time_ticks < pexp
      · rw [service_eq_ok_grace fexp pexp ka st t (by omega) h3] at hres
        simp at hres
      · rw [service_eq_dead fexp pexp ka st t (by omega) (by omega)] at hres
        simp at hres

/-- Witness for C6 at a concrete state: a path with a recent receive and a
stale send reports `NeedsKeepalive`. -/
theorem C6_service_classification_witness :
    (Path.service 5 100 20 (pathSt 0 90 0 []) 100).2 = .NeedsKeepalive :=
  ((C6_service_classification 5 100 20 (pathSt 0 90 0 []) 100 0).1
    (by decide)).1.mpr (by decide)

/-- C9: `verify_signature` is a plain boolean: it is `false` whenever the
supplied identity's address differs from the stored `signer`, `false`
whenever re-serialization of the non-signature fields fails, and exactly the
identity's verification verdict on the re-serialized bytes when the address
matches and re-serialization succeeds. -/
theorem C9_verify_signature_spec (cap : Nat) (loc : Locator) (id : Identity) :
    (id.address ≠ loc.signer → loc.verify_signature cap id = false) ∧
    (∀ e, loc.marshal_internal (Buffer.new cap) true = .error e →
      loc.verify_signature cap id = false) ∧
    (∀ buf, loc.marshal_internal (Buffer.new cap) true = .ok buf →
      id.address = loc.signer →
      loc.verify_signature cap id = id.verify buf.data loc.signature) := by
  refine ⟨?_, ?_, ?_⟩
  · intro hne
    unfold Locator.verify_signature
    cases hm : loc.marshal_internal (Buffer.new cap) true with
    | ok buf => simp [hne]
    | error e => rfl
  · intro e he
    unfold Locator.verify_signature
    rw [he]
  · intro buf hb heq
    unfold Locator.verify_signature
    rw [hb]
    simp [heq]

/-- Witness for C9: verifying `locProxyA` (signed by `addrB`) with the
identity of `addrA` returns false by the address-mismatch rule. -/
theorem C9_verify_signature_spec_witness :
    Locator.verify_signature 64 locProxyA identA = false :=
  (C9_verify_signature_spec 64 locProxyA identA).1 (by decide)

/-- C10: no operation changes `create_time_ticks`, `endpoint`,
`local_socket`, `local_interface` or `internal_instance_id`;
`receive_fragment` changes only the reassembly table; `service` never
changes `last_receive_time_ticks` and sets `last_send_time_ticks` to the
call's `time_ticks` exactly in a `NeedsKeepalive` call; the logging hooks
change only their own timestamp. -/
theorem C10_frame_conditions (bound : Nat) (st : PathState)
    (pid no exp : Nat) (pkt : Packet) (fexp pexp ka t : Int) :
    ((Path.receive_fragment bound st pid no exp pkt t).1.endpoint = st.endpoint ∧
     (Path.receive_fragment bound st pid no exp pkt t).1.local_socket = st.local_socket ∧
     (Path.receive_fragment bound st pid no exp pkt t).1.local_interface = st.local_interface ∧
     (Path.receive_fragment bound st pid no exp pkt t).1.internal_instance_id
        = st.internal_instance_id ∧
     (Path.receive_fragment bound st pid no exp pkt t).1.create_time_ticks
        = st.create_time_ticks ∧
     (Path.receive_fragment bound st pid no exp pkt t).1.last_send_time_ticks
        = st.last_send_time_ticks ∧
     (Path.receive_fragment bound st pid no exp pkt t).1.last_receive_time_ticks
        = st.last_receive_time_ticks) ∧
    ((Path.service fexp pexp ka st t).1.endpoint = st.endpoint ∧
     (Path.service fexp pexp ka st t).1.local_socket = st.local_socket ∧
     (Path.service fexp pexp ka st t).1.local_interface = st.local_interface ∧
     (Path.service fexp pexp ka st t).1.internal_instance_id = st.internal_instance_id ∧
     (Path.service fexp pexp ka st t).1.create_time_ticks = st.create_time_ticks ∧
     (Path.service fexp pexp ka st t).1.last_receive_time_ticks
        = st.last_receive_time_ticks ∧
     (Path.service fexp pexp ka st t).1.last_send_time_ticks =
        (if (Path.service fexp pexp ka st t).2 = .NeedsKeepalive
         then t else st.last_send_time_ticks)) ∧
    (Path.log_send_anything st t =
      { st with last_send_time_ticks := t }) ∧
    (Path.log_receive_anything st t =
      { st with last_receive_time_ticks := t }) := by
  refine ⟨⟨rfl, rfl, rfl, rfl, rfl, rfl, rfl⟩, ?_, rfl, rfl⟩
  by_cases h1 : t - st.last_receive_time_ticks < pexp
  · by_cases h2 : ka ≤ t - st.last_send_time_ticks
    · rw [service_eq_keepalive fexp pexp ka st t h1 h2]
      simp
    · rw [service_eq_ok_recent fexp pexp ka st t h1 (by omega)]
      simp
  · by_cases h3 : t - st.create_time_ticks < pexp
    · rw [service_eq_ok_grace fexp pexp ka st t (by omega) h3]
      simp
    · rw [service_eq_dead fexp pexp ka st t (by omega) (by omega)]
      simp

/-! ### C2: the canonical-endpoints invariant -/

theorem dedupConsec_head (b : Endpoint) (r : List Endpoint) :
    ∃ tl, dedupConsec (b :: r) = b :: tl := by
  induction r generalizing b with
  | nil => exact ⟨[], rfl⟩
  | cons c r' ih =>
    by_cases h : b = c
    · subst h
      obtain ⟨tl, htl⟩ := ih b
      exact ⟨tl, by rw [dedupConsec, if_pos rfl]; exact htl⟩
    · obtain ⟨tl, htl⟩ := ih c
      exact ⟨dedupConsec (c :: r'), by rw [dedupConsec, if_neg h]⟩

theorem endpointsCanonical_dedupConsec (l : List Endpoint)
    (hs : List.Sorted (· ≤ ·) l) : endpointsCanonical (dedupConsec l) = true := by
  induction l with
  | nil => rfl
  | cons a r ih =>
    cases r with
    | nil => rfl
    | cons b r' =>
      have hab : a ≤ b := (List.sorted_cons.mp hs).1 b (by simp)
      have htail : List.Sorted (· ≤ ·) (b :: r') := (List.sorted_cons.mp hs).2
      by_cases h : a = b
      · rw [dedupConsec, if_pos h]
        exact ih htail
      · rw [dedupConsec, if_neg h]
        obtain ⟨tl, htl⟩ := dedupConsec_head b r'
        rw [htl]
        have : endpointsCanonical (b :: tl) = true := htl ▸ ih htail
        simp only [endpointsCanonical, Bool.and_eq_true, decide_eq_true_eq]
        exact ⟨lt_of_le_of_ne hab h, this⟩

/-- C2 (amended): every Locator produced by `create` has its endpoint
sequence sorted strictly ascending (so sorted and duplicate-free);
`unmarshal`, by contrast, does not re-establish this invariant (see the
counterexample). -/
theorem C2_create_endpoints_canonical (cap : Nat) (id : Identity) (subject : Address)
    (ts : Int) (eps : List Endpoint) (loc : Locator)
    (h : Locator.create cap id subject ts eps = some loc) :
    endpointsCanonical loc.endpoints = true := by
  simp only [Locator.create] at h
  split at h
  · exact absurd h (by simp)
  · obtain ⟨sig, _, hloc⟩ := Option.map_eq_some'.mp h
    have hep : loc.endpoints = dedupConsec (sortEndpoints eps) := by
      rw [← hloc]
    rw [hep]
    exact endpointsCanonical_dedupConsec _
      (List.sorted_insertionSort (· ≤ ·) eps)

/-- Witness for C2's amended claim at a concrete input. -/
theorem C2_create_endpoints_canonical_witness :
    Locator.create 64 identA addrB 0 [5, 3, 3] = some locW ∧
    endpointsCanonical locW.endpoints = true :=
  ⟨by decide, C2_create_endpoints_canonical 64 identA addrB 0 [5, 3, 3] locW (by decide)⟩

/-- C2 (counterexample to the claim as stated): `unmarshal` succeeds on a
buffer whose endpoint list `[5, 3]` is not sorted, and returns it verbatim —
a Locator obtained through `unmarshal` need not have sorted, deduplicated
endpoints. -/
theorem C2_unmarshal_not_canonical_counterexample :
    Locator.unmarshal badBytes 0 =
      .ok (⟨addrA, addrA, 0, [5, 3], []⟩, 23) ∧
    endpointsCanonical [5, 3] = false :=
  ⟨rfl, rfl⟩

/-! ### C7: the Locator comparison -/

theorem natCmp_lt_iff (a b : Nat) : natCmp a b = .lt ↔ a < b := by
  unfold natCmp
  split_ifs <;> simp_all

theorem natCmp_eq_iff (a b : Nat) : natCmp a b = .eq ↔ a = b := by
  unfold natCmp
  split_ifs <;> simp_all <;> omega

theorem intCmp_lt_iff (a b : Int) : intCmp a b = .lt ↔ a < b := by
  unfold intCmp
  split_ifs <;> simp_all

theorem intCmp_eq_iff (a b : Int) : intCmp a b = .eq ↔ a = b := by
  unfold intCmp
  split_ifs <;> simp_all <;> omega

theorem ordLexStep_lt_iff (o t : Ordering) :
    ordLexStep o t = .lt ↔ (o = .lt ∨ (o = .eq ∧ t = .lt)) := by
  cases o <;> simp [ordLexStep]

theorem ordLexStep_eq_iff (o t : Ordering) :
    ordLexStep o t = .eq ↔ (o = .eq ∧ t = .eq) := by
  cases o <;> simp [ordLexStep]

theorem epListCmp_eq_iff : ∀ (xs ys : List Endpoint), epListCmp xs ys = .eq ↔ xs = ys := by
  intro xs
  induction xs with
  | nil => intro ys; cases ys <;> simp [epListCmp]
  | cons x xs' ih =>
    intro ys
    cases ys with
    | nil => simp [epListCmp]
    | cons y ys' =>
      rw [epListCmp, ordLexStep_eq_iff, natCmp_eq_iff, ih ys']
      simp

theorem epListCmp_trans_lt :
    ∀ (xs ys zs : List Endpoint), epListCmp xs ys = .lt → epListCmp ys zs = .lt →
      epListCmp xs zs = .lt := by
  intro xs
  induction xs with
  | nil =>
    intro ys zs h1 h2
    cases ys with
    | nil => cases zs <;> simp_all [epListCmp]
    | cons y ys' =>
      cases zs with
      | nil => simp [epListCmp] at h2
      | cons z zs' => simp [epListCmp]
  | cons x xs' ih =>
    intro ys zs h1 h2
    cases ys with
    | nil => simp [epListCmp] at h1
    | cons y ys' =>
      cases zs with
      | nil => simp [epListCmp] at h2
      | cons z zs' =>
        rw [epListCmp, ordLexStep_lt_iff, natCmp_lt_iff, natCmp_eq_iff] at h1 h2 ⊢
        rcases h1 with h1 | ⟨h1e, h1t⟩ <;> rcases h2 with h2 | ⟨h2e, h2t⟩
        · exact Or.inl (by omega)
        · exact Or.inl (by omega)
        · exact Or.inl (by omega)
        · exact Or.inr ⟨by omega, ih ys' zs' h1t h2t⟩

/-- The four ordered fields as a lexicographic disjunction. -/
theorem locCmp_lt_iff (a b : Locator) :
    a.cmp b = .lt ↔
      (a.subject.val < b.subject.val ∨
        (a.subject.val = b.subject.val ∧ (a.timestamp < b.timestamp ∨
          (a.timestamp = b.timestamp ∧ (a.signer.val < b.signer.val ∨
            (a.signer.val = b.signer.val ∧
              epListCmp a.endpoints b.endpoints = .lt)))))) := by
  unfold Locator.cmp
  rw [ordLexStep_lt_iff, ordLexStep_lt_iff, ordLexStep_lt_iff,
    natCmp_lt_iff, natCmp_eq_iff, intCmp_lt_iff, intCmp_eq_iff,
    natCmp_lt_iff, natCmp_eq_iff]

theorem locCmp_eq_iff (a b : Locator) :
    a.cmp b = .eq ↔
      (a.subject.val = b.subject.val ∧ a.timestamp = b.timestamp ∧
        a.signer.val = b.signer.val ∧ a.endpoints = b.endpoints) := by
  unfold Locator.cmp
  rw [ordLexStep_eq_iff, ordLexStep_eq_iff, ordLexStep_eq_iff,
    natCmp_eq_iff, intCmp_eq_iff, natCmp_eq_iff, epListCmp_eq_iff]

/-- The normalized endpoint list is invariant under permutations of the
input (both sorts of a permutation pair are sorted permutations of the same
multiset, hence equal). -/
theorem sortEndpoints_perm_eq {e1 e2 : List Endpoint} (h : e1.Perm e2) :
    sortEndpoints e1 = sortEndpoints e2 :=
  List.eq_of_perm_of_sorted
    (((List.perm_insertionSort _ e1).trans h).trans (List.perm_insertionSort _ e2).symm)
    (List.sorted_insertionSort _ e1) (List.sorted_insertionSort _ e2)

/-- C7 (amended): Locator comparison is transitive and compares `Equal`
exactly when the four ordered fields — subject, timestamp, signer, endpoint
sequence — coincide (the `signature` field is excluded from the order, so
`Equal` does not imply the Locators are identical; see the counterexample),
and two Locators created from the same fields with endpoint lists differing
only in input order compare `Equal`. -/
theorem C7_cmp_total_order (a b c : Locator) :
    (a.cmp b = .lt → b.cmp c = .lt → a.cmp c = .lt) ∧
    (a.cmp b = .eq ↔ (a.subject = b.subject ∧ a.timestamp = b.timestamp ∧
      a.signer = b.signer ∧ a.endpoints = b.endpoints)) ∧
    (∀ (cap : Nat) (id : Identity) (subj : Address) (ts : Int)
        (e1 e2 : List Endpoint) (l1 l2 : Locator), e1.Perm e2 →
      Locator.create cap id subj ts e1 = some l1 →
      Locator.create cap id subj ts e2 = some l2 → l1.cmp l2 = .eq) := by
  refine ⟨?_, ?_, ?_⟩
  · intro h1 h2
    rw [locCmp_lt_iff] at h1 h2 ⊢
    rcases h1 with h1 | ⟨h1s, h1r⟩
    · rcases h2 with h2 | ⟨h2s, h2r⟩
      · exact Or.inl (by omega)
      · exact Or.inl (by omega)
    · rcases h2 with h2 | ⟨h2s, h2r⟩
      · exact Or.inl (by omega)
      · refine Or.inr ⟨by omega, ?_⟩
        rcases h1r with h1t | ⟨h1t, h1r⟩
        · rcases h2r with h2t | ⟨h2t, h2r⟩
          · exact Or.inl (by omega)
          · exact Or.inl (by omega)
        · rcases h2r with h2t | ⟨h2t, h2r⟩
          · exact Or.inl (by omega)
          · refine Or.inr ⟨by omega, ?_⟩
            rcases h1r with h1g | ⟨h1g, h1e⟩
            · rcases h2r with h2g | ⟨h2g, h2e⟩
              · exact Or.inl (by omega)
              · exact Or.inl (by omega)
            · rcases h2r with h2g | ⟨h2g, h2e⟩
              · exact Or.inl (by omega)
              · exact Or.inr ⟨by omega, epListCmp_trans_lt _ _ _ h1e h2e⟩
  · rw [locCmp_eq_iff]
    constructor
    · rintro ⟨hs, ht, hg, he⟩
      exact ⟨Address.ext_val hs, ht, Address.ext_val hg, he⟩
    · rintro ⟨hs, ht, hg, he⟩
      exact ⟨congrArg Address.val hs, ht, congrArg Address.val hg, he⟩
  · intro cap id subj ts e1 e2 l1 l2 hperm h1 h2
    have hnorm : dedupConsec (sortEndpoints e1) = dedupConsec (sortEndpoints e2) := by
      rw [sortEndpoints_perm_eq hperm]
    have hsame : Locator.create cap id subj ts e1 = Locator.create cap id subj ts e2 := by
      unfold Locator.create
      rw [hnorm]
    have hl : l1 = l2 := by
      have := (h1.symm.trans hsame).trans h2
      exact Option.some.inj this.symm |>.symm
    subst hl
    rw [locCmp_eq_iff]
    exact ⟨rfl, rfl, rfl, rfl⟩

/-- Witness for C7 at concrete inputs: a strict chain through timestamps,
and two creations from permuted endpoint lists comparing `Equal`. -/
theorem C7_cmp_total_order_witness :
    locSelfA.cmp locT2 = .lt ∧ locW.cmp locW = .eq :=
  ⟨(C7_cmp_total_order locSelfA locT1 locT2).1 (by decide) (by decide),
   (C7_cmp_total_order locSelfA locT1 locT2).2.2 64 identA addrB 0 [5, 3] [3, 5] locW locW
     (by decide) (by decide) (by decide)⟩

/-- C7 (counterexample to the claim as stated): two distinct Locators that
differ only in the `signature` field compare `Equal`, so comparing `Equal`
does not make them the same Locator and the order is not antisymmetric on
Locators. -/
theorem C7_cmp_not_antisymmetric_counterexample :
    locSelfA.cmp locSelfA' = .eq ∧ locSelfA ≠ locSelfA' :=
  ⟨rfl, by decide⟩

/-! ### C8: the marshal/unmarshal roundtrip -/

theorem except_bind_ok {α β : Type} (a : α) (f : α → Except Unit β) :
    (Except.ok a >>= f) = f a := rfl

theorem except_bind_error {α β : Type} (f : α → Except Unit β) :
    ((Except.error () : Except Unit α) >>= f) = Except.error () := rfl

theorem append_bytes_cases (b : Buffer) (bs : List Nat) :
    Buffer.append_bytes b bs = .error () ∨
    Buffer.append_bytes b bs = .ok ⟨b.cap, b.data ++ bs⟩ := by
  unfold Buffer.append_bytes
  split_ifs
  · right; rfl
  · left; rfl

theorem appendEndpoints_cases :
    ∀ (es : List Endpoint) (b : Buffer),
      appendEndpoints es b = .error () ∨
      appendEndpoints es b = .ok ⟨b.cap, b.data ++ epsBytes es⟩ := by
  intro es
  induction es with
  | nil => intro b; right; simp [appendEndpoints, epsBytes]
  | cons e es' ih =>
    intro b
    rw [appendEndpoints]
    rcases append_bytes_cases b (varintEnc e) with h | h
    · simp only [Buffer.append_varint, h]
      exact Or.inl trivial
    · simp only [Buffer.append_varint, h]
      rcases ih ⟨b.cap, b.data ++ varintEnc e⟩ with h2 | h2
      · left; rw [h2]
      · right; rw [h2]; simp [epsBytes, List.append_assoc]

/-- Whenever `marshal` (signature included) succeeds, the appended bytes are
exactly `encLocFull`. -/
theorem marshal_ok_data (loc : Locator) (b buf : Buffer)
    (h : loc.marshal b = .ok buf) :
    buf = ⟨b.cap, b.data ++ encLocFull loc⟩ := by
  unfold Locator.marshal Locator.marshal_internal at h
  rcases append_bytes_cases b loc.subject.marshalBytes with h1 | h1 <;>
    simp only [h1, except_bind_error, except_bind_ok] at h
  · exact absurd h (by simp)
  rcases append_bytes_cases ⟨b.cap, b.data ++ loc.subject.marshalBytes⟩
      loc.signer.marshalBytes with h2 | h2 <;>
    simp only [h2, except_bind_error, except_bind_ok] at h
  · exact absurd h (by simp)
  rcases append_bytes_cases
      ⟨b.cap, (b.data ++ loc.subject.marshalBytes) ++ loc.signer.marshalBytes⟩
      (toBytesBE 8 (i64ToU64 loc.timestamp)) with h3 | h3 <;>
    simp only [Buffer.append_u64, h3, except_bind_error, except_bind_ok] at h
  · exact absurd h (by simp)
  rcases append_bytes_cases
      ⟨b.cap, ((b.data ++ loc.subject.marshalBytes) ++ loc.signer.marshalBytes)
        ++ toBytesBE 8 (i64ToU64 loc.timestamp)⟩
      (varintEnc loc.endpoints.length) with h4 | h4 <;>
    simp only [Buffer.append_varint, h4, except_bind_error, except_bind_ok] at h
  · exact absurd h (by simp)
  rcases appendEndpoints_cases loc.endpoints
      ⟨b.cap, (((b.data ++ loc.subject.marshalBytes) ++ loc.signer.marshalBytes)
        ++ toBytesBE 8 (i64ToU64 loc.timestamp)) ++ varintEnc loc.endpoints.length⟩
      with h5 | h5 <;>
    simp only [h5, except_bind_error, except_bind_ok] at h
  · exact absurd h (by simp)
  rcases append_bytes_cases
      ⟨b.cap, ((((b.data ++ loc.subject.marshalBytes) ++ loc.signer.marshalBytes)
        ++ toBytesBE 8 (i64ToU64 loc.timestamp)) ++ varintEnc loc.endpoints.length)
        ++ epsBytes loc.endpoints⟩
      (varintEnc 0) with h6 | h6 <;>
    simp only [h6, except_bind_error, except_bind_ok] at h
  · exact absurd h (by simp)
  rcases append_bytes_cases
      ⟨b.cap, (((((b.data ++ loc.subject.marshalBytes) ++ loc.signer.marshalBytes)
        ++ toBytesBE 8 (i64ToU64 loc.timestamp)) ++ varintEnc loc.endpoints.length)
        ++ epsBytes loc.endpoints) ++ varintEnc 0⟩
      (varintEnc loc.signature.length) with h7 | h7 <;>
    simp only [Bool.false_eq_true, if_false, h7, except_bind_error, except_bind_ok] at h
  · exact absurd h (by simp)
  rcases append_bytes_cases
      ⟨b.cap, ((((((b.data ++ loc.subject.marshalBytes) ++ loc.signer.marshalBytes)
        ++ toBytesBE 8 (i64ToU64 loc.timestamp)) ++ varintEnc loc.endpoints.length)
        ++ epsBytes loc.endpoints) ++ varintEnc 0) ++ varintEnc loc.signature.length⟩
      loc.signature with h8 | h8 <;>
    simp only [h8, except_bind_error, except_bind_ok] at h
  · exact absurd h (by simp)
  simp only [Except.ok.injEq] at h
  rw [← h]
  simp [encLocFull, List.append_assoc]

/-- The two facts a sequential read step needs: the cursor stays in bounds
and the remaining bytes are the suffix. -/
theorem drop_facts {d : List Nat} {c : Nat} {x s : List Nat}
    (hd : d.drop c = x ++ s) (hc : c ≤ d.length) :
    c + x.length ≤ d.length ∧ d.drop (c + x.length) = s := by
  have hlen := congrArg List.length hd
  simp only [List.length_drop, List.length_append] at hlen
  refine ⟨by omega, ?_⟩
  rw [← List.drop_drop, hd, List.drop_left]

theorem readBytes_drop {d : List Nat} {c : Nat} {x s : List Nat}
    (hd : d.drop c = x ++ s) (hc : c ≤ d.length) :
    readBytes d c x.length = .ok (x, c + x.length) := by
  obtain ⟨hle, _⟩ := drop_facts hd hc
  unfold readBytes
  rw [if_pos hle, hd, List.take_left]

theorem readVarint_drop {d : List Nat} {c : Nat} {n : Nat} {s : List Nat}
    (hd : d.drop c = varintEnc n ++ s) :
    readVarint d c = .ok (n, c + (varintEnc n).length) := by
  unfold readVarint
  rw [hd, varintDec_enc]

theorem readU64_drop {d : List Nat} {c : Nat} {n : Nat} {s : List Nat}
    (hd : d.drop c = toBytesBE 8 n ++ s) (hc : c ≤ d.length) (hn : n < 2 ^ 64) :
    readU64 d c = .ok (n, c + 8) := by
  have h8 : (toBytesBE 8 n).length = 8 := length_toBytesBE 8 n
  have hb := readBytes_drop hd hc
  rw [h8] at hb
  unfold readU64
  simp only [hb]
  rw [fromBytesBE_toBytesBE]
  have : n % 256 ^ 8 = n := Nat.mod_eq_of_lt (by norm_num; omega)
  rw [this]

theorem address_unmarshal_drop {d : List Nat} {c : Nat} {a : Address} {s : List Nat}
    (hd : d.drop c = a.marshalBytes ++ s) (hc : c ≤ d.length) :
    Address.unmarshal d c = .ok (some a, c + 5) := by
  have hlen : a.marshalBytes.length = 5 := length_toBytesBE 5 a.val
  have hb := readBytes_drop hd hc
  rw [hlen] at hb
  have hval : a.val < 2 ^ 40 := by
    have hv := a.valid
    simp only [addrValid, Bool.and_eq_true, decide_eq_true_eq] at hv
    exact hv.1.2
  have hfrom : fromBytesBE a.marshalBytes = a.val := by
    unfold Address.marshalBytes
    rw [fromBytesBE_toBytesBE]
    exact Nat.mod_eq_of_lt (by norm_num; omega)
  unfold Address.unmarshal
  simp only [hb]
  rw [hfrom]
  unfold Address.ofVal
  rw [dif_pos a.valid]

theorem readEndpoints_drop :
    ∀ (es : List Endpoint) {d : List Nat} {c : Nat} {s : List Nat},
      d.drop c = epsBytes es ++ s → c ≤ d.length →
      readEndpoints d es.length c = .ok (es, c + (epsBytes es).length) := by
  intro es
  induction es with
  | nil =>
    intro d c s hd hc
    simp [readEndpoints, epsBytes]
  | cons e es' ih =>
    intro d c s hd hc
    have hd1 : d.drop c = varintEnc e ++ (epsBytes es' ++ s) := by
      simpa [epsBytes, List.append_assoc] using hd
    have hv := readVarint_drop hd1
    obtain ⟨hle, hnext⟩ := drop_facts hd1 hc
    have hd2 : d.drop (c + (varintEnc e).length) = epsBytes es' ++ s := hnext
    have hrec := ih hd2 (by omega)
    show readEndpoints d (es'.length + 1) c = _
    rw [readEndpoints]
    simp only [Endpoint.unmarshal, hv, hrec]
    have : c + (varintEnc e).length + (epsBytes es').length
        = c + (epsBytes (e :: es')).length := by
      simp [epsBytes, List.length_append]
      omega
    rw [this]

theorem i64_roundtrip (t : Int) (hlo : -(2 ^ 63) ≤ t) (hhi : t < 2 ^ 63) :
    u64ToI64 (i64ToU64 t) = t := by
  unfold u64ToI64 i64ToU64
  split_ifs with h <;> omega

theorem i64ToU64_lt (t : Int) : i64ToU64 t < 2 ^ 64 := by
  unfold i64ToU64
  omega

/-- Unmarshaling the exact byte image of a locator (timestamp in `i64`
range) recovers the locator and consumes the whole buffer. -/
theorem unmarshal_encLocFull (loc : Locator)
    (hlo : -(2 ^ 63) ≤ loc.timestamp) (hhi : loc.timestamp < 2 ^ 63) :
    Locator.unmarshal (encLocFull loc) 0 = .ok (loc, (encLocFull loc).length) := by
  have lenA : loc.subject.marshalBytes.length = 5 := length_toBytesBE 5 _
  have lenB : loc.signer.marshalBytes.length = 5 := length_toBytesBE 5 _
  have lenC : (toBytesBE 8 (i64ToU64 loc.timestamp)).length = 8 := length_toBytesBE 8 _
  set lD := (varintEnc loc.endpoints.length).length with hlD
  set lE := (epsBytes loc.endpoints).length with hlE
  set lG := (varintEnc loc.signature.length).length with hlG
  set d := encLocFull loc with hdef
  have h0 : d.drop 0 = loc.subject.marshalBytes ++
      (loc.signer.marshalBytes ++
        (toBytesBE 8 (i64ToU64 loc.timestamp) ++
          (varintEnc loc.endpoints.length ++
            (epsBytes loc.endpoints ++
              (varintEnc 0 ++
                (varintEnc loc.signature.length ++ loc.signature)))))) := by
    rw [List.drop_zero, hdef]
    rfl
  have hc0 : (0 : Nat) ≤ d.length := Nat.zero_le _
  have ha := address_unmarshal_drop h0 hc0
  obtain ⟨hle1, hd1⟩ := drop_facts h0 hc0
  rw [lenA] at hd1 hle1
  norm_num at ha hd1 hle1
  have hb := address_unmarshal_drop hd1 (by omega)
  obtain ⟨hle2, hd2⟩ := drop_facts hd1 (by omega)
  rw [lenB] at hd2 hle2
  norm_num at hb hd2 hle2
  have hu := readU64_drop hd2 (by omega) (i64ToU64_lt loc.timestamp)
  obtain ⟨hle3, hd3⟩ := drop_facts hd2 (by omega)
  rw [lenC] at hd3 hle3
  norm_num at hu hd3 hle3
  have hv := readVarint_drop hd3
  obtain ⟨hle4, hd4⟩ := drop_facts hd3 (by omega)
  rw [← hlD] at hv hd4 hle4
  have he := readEndpoints_drop loc.endpoints hd4 (by omega)
  obtain ⟨hle5, hd5⟩ := drop_facts hd4 (by omega)
  rw [← hlE] at he hd5 hle5
  have hx := readVarint_drop hd5
  obtain ⟨hle6, hd6⟩ := drop_facts hd5 (by omega)
  have hvz : (varintEnc 0).length = 1 := rfl
  rw [hvz] at hx hd6 hle6
  have hg := readVarint_drop hd6
  obtain ⟨hle7, hd7⟩ := drop_facts hd6 (by omega)
  rw [← hlG] at hg hd7 hle7
  rw [← List.append_nil loc.signature] at hd7
  have hr := readBytes_drop hd7 (by omega)
  have hdl : d.length = 18 + lD + lE + 1 + lG + loc.signature.length := by
    rw [hdef]
    simp [encLocFull, List.length_append, lenA, lenB, lenC, hlD, hlE, hlG]
    omega
  unfold Locator.unmarshal
  simp only [ha, hb, hu, hv, he, hx, hg, hr, except_bind_ok, Nat.add_zero]
  rw [i64_roundtrip loc.timestamp hlo hhi, hdl]

/-- The field values `create` puts into a successfully created Locator. -/
theorem create_some_fields {cap : Nat} {id : Identity} {subject : Address}
    {ts : Int} {eps : List Endpoint} {loc : Locator}
    (h : Locator.create cap id subject ts eps = some loc) :
    loc.subject = subject ∧ loc.signer = id.address ∧ loc.timestamp = ts ∧
      loc.endpoints = dedupConsec (sortEndpoints eps) := by
  simp only [Locator.create] at h
  split at h
  · exact absurd h (by simp)
  · obtain ⟨sig, _, hloc⟩ := Option.map_eq_some'.mp h
    rw [← hloc]
    exact ⟨rfl, rfl, rfl, rfl⟩

/-- C8: for a Locator produced by `create` (timestamps are `i64` values),
unmarshaling the bytes produced by marshaling it recovers the identical
subject, signer, timestamp, endpoint sequence and signature — the whole
Locator — consuming the whole byte image. -/
theorem C8_roundtrip (cap : Nat) (id : Identity) (subject : Address)
    (ts : Int) (eps : List Endpoint) (loc : Locator) (buf : Buffer)
    (hlo : -(2 ^ 63) ≤ ts) (hhi : ts < 2 ^ 63)
    (hcreate : Locator.create cap id subject ts eps = some loc)
    (hmarshal : loc.marshal (Buffer.new cap) = .ok buf) :
    Locator.unmarshal buf.data 0 = .ok (loc, buf.data.length) := by
  obtain ⟨-, -, hts, -⟩ := create_some_fields hcreate
  have hdata : buf.data = encLocFull loc := by
    have := marshal_ok_data loc (Buffer.new cap) buf hmarshal
    rw [this]
    simp [Buffer.new]
  rw [hdata]
  exact unmarshal_encLocFull loc (hts ▸ hlo) (hts ▸ hhi)

/-- Witness for C8 at a concrete creation: `create 64 identA addrB 0
[5, 3, 3]` gives `locW`, whose 26-byte image unmarshals back to `locW`. -/
theorem C8_roundtrip_witness :
    Locator.unmarshal bufW.data 0 = .ok (locW, 26) :=
  C8_roundtrip 64 identA addrB 0 [5, 3, 3] locW bufW
    (by decide) (by decide) (by decide) rfl

/-! ### C4: bounded eviction in receive_fragment -/

theorem map_fst_filter_ne (tl : List (Nat × FragmentedPacket)) (k : Nat) :
    (tl.filter (fun e => decide (e.1 ≠ k))).map Prod.fst
      = (tl.map Prod.fst).filter (fun x => decide (x ≠ k)) := by
  induction tl with
  | nil => rfl
  | cons e tl ih =>
    by_cases h : e.1 = k
    · simp [List.filter_cons, h]
      simpa using ih
    · simp [List.filter_cons, h]
      simpa using ih

theorem keys_removeKey (tbl : FragTable) (k : Nat) :
    FragTable.keys (FragTable.removeKey tbl k)
      = (FragTable.keys tbl).filter (fun x => decide (x ≠ k)) :=
  map_fst_filter_ne tbl k

theorem filter_ne_length {l : List Nat} {k : Nat} (hnd : l.Nodup) (hk : k ∈ l) :
    (l.filter (fun x => decide (x ≠ k))).length + 1 = l.length := by
  induction l with
  | nil => simp at hk
  | cons a l' ih =>
    rw [List.nodup_cons] at hnd
    rcases List.mem_cons.mp hk with h | h
    · rw [List.filter_cons, if_neg (by simp [h])]
      rw [List.filter_eq_self.mpr ?_]
      · simp
      · intro b hb
        simp only [decide_eq_true_eq]
        intro hbk
        exact hnd.1 ((h ▸ hbk) ▸ hb)
    · rw [List.filter_cons]
      by_cases hak : a = k
      · exact absurd (hak ▸ h) hnd.1
      · rw [if_pos (by simp [hak])]
        have := ih hnd.2 h
        simp only [List.length_cons]
        omega

theorem removeKey_length_of_mem {tbl : FragTable} {k : Nat}
    (hnd : (FragTable.keys tbl).Nodup) (hk : k ∈ FragTable.keys tbl) :
    (FragTable.removeKey tbl k).length + 1 = tbl.length := by
  have h1 : (FragTable.removeKey tbl k).length
      = (FragTable.keys (FragTable.removeKey tbl k)).length :=
    (List.length_map _ _).symm
  have h2 : tbl.length = (FragTable.keys tbl).length := (List.length_map _ _).symm
  rw [h1, h2, keys_removeKey]
  exact filter_ne_length hnd hk

theorem foldl_removeKey_eq_filter :
    ∀ (R : List Nat) (tbl : FragTable),
      R.foldl (fun acc k => FragTable.removeKey acc k) tbl
        = tbl.filter (fun e => decide (e.1 ∉ R)) := by
  intro R
  induction R with
  | nil => intro tbl; simp
  | cons k R' ih =>
    intro tbl
    simp only [List.foldl_cons]
    rw [ih]
    unfold FragTable.removeKey
    rw [List.filter_filter]
    apply List.filter_congr
    intro e _
    by_cases h1 : e.1 = k <;> by_cases h2 : e.1 ∈ R' <;> simp [h1, h2]

theorem foldl_removeKey_length :
    ∀ (R : List Nat) (tbl : FragTable), (FragTable.keys tbl).Nodup → R.Nodup →
      (∀ k ∈ R, k ∈ FragTable.keys tbl) →
      (R.foldl (fun acc k => FragTable.removeKey acc k) tbl).length
        = tbl.length - R.length := by
  intro R
  induction R with
  | nil => intro tbl _ _ _; simp
  | cons k R' ih =>
    intro tbl hnd hRnd hmem
    simp only [List.foldl_cons]
    have hk : k ∈ FragTable.keys tbl := hmem k (by simp)
    have hlen := removeKey_length_of_mem hnd hk
    simp only [List.nodup_cons] at hRnd
    have hnd' : (FragTable.keys (FragTable.removeKey tbl k)).Nodup := by
      rw [keys_removeKey]
      exact hnd.filter _
    have hmem' : ∀ k' ∈ R', k' ∈ FragTable.keys (FragTable.removeKey tbl k) := by
      intro k' hk'
      rw [keys_removeKey, List.mem_filter]
      exact ⟨hmem k' (by simp [hk']), by
        simp only [decide_eq_true_eq]
        intro hkk
        exact hRnd.1 (hkk ▸ hk')⟩
    rw [ih (FragTable.removeKey tbl k) hnd' hRnd.2 hmem']
    simp only [List.length_cons]
    omega

theorem evictOldest_over {bound : Nat} {tbl : FragTable} (hover : bound < tbl.length) :
    evictOldest bound tbl =
      tbl.filter (fun e =>
        decide (e.1 ∉ (oldestEntries tbl).map (fun p => p.2))) := by
  unfold evictOldest oldestEntries
  rw [if_pos hover]
  rw [show ((sortEntries (tbl.map (fun f => (f.2.ts_ticks, f.1)))).take
        (tbl.length / 3)).foldl (fun acc e => FragTable.removeKey acc e.2) tbl
      = (((sortEntries (tbl.map (fun f => (f.2.ts_ticks, f.1)))).take
          (tbl.length / 3)).map (fun p => p.2)).foldl
            (fun acc k' => FragTable.removeKey acc k') tbl from
    (List.foldl_map _ _ _ _).symm]
  exact foldl_removeKey_eq_filter _ tbl

theorem oldestKeys_facts {tbl : FragTable} (hnodup : (FragTable.keys tbl).Nodup) :
    ((oldestEntries tbl).map (fun p => p.2)).Nodup ∧
    (∀ key ∈ (oldestEntries tbl).map (fun p => p.2), key ∈ FragTable.keys tbl) ∧
    ((oldestEntries tbl).map (fun p => p.2)).length = tbl.length / 3 := by
  have hperm : (sortEntries (tbl.map (fun f => (f.2.ts_ticks, f.1)))).Perm
      (tbl.map (fun f => (f.2.ts_ticks, f.1))) :=
    List.perm_insertionSort _ _
  have hkeys : (tbl.map (fun f => (f.2.ts_ticks, f.1))).map (fun p => p.2)
      = FragTable.keys tbl := by
    simp [List.map_map, FragTable.keys]
  have hSKperm : ((sortEntries (tbl.map (fun f => (f.2.ts_ticks, f.1)))).map (fun p => p.2)).Perm
      (FragTable.keys tbl) := by
    have := hperm.map (fun p => p.2)
    rwa [hkeys] at this
  have hSKnodup : ((sortEntries (tbl.map (fun f => (f.2.ts_ticks, f.1)))).map
      (fun p => p.2)).Nodup := hSKperm.nodup_iff.mpr hnodup
  have hslen : (sortEntries (tbl.map (fun f => (f.2.ts_ticks, f.1)))).length
      = tbl.length := by
    rw [hperm.length_eq, List.length_map]
  refine ⟨?_, ?_, ?_⟩
  · rw [oldestEntries, List.map_take]
    exact (List.take_sublist _ _).nodup hSKnodup
  · intro key hkey
    rw [oldestEntries, List.map_take] at hkey
    exact hSKperm.subset (List.take_subset _ _ hkey)
  · rw [oldestEntries, List.map_take, List.length_take, List.length_map, hslen]
    have := Nat.div_le_self tbl.length 3
    omega

theorem lookup_removeKey (tbl : FragTable) (k : Nat) :
    FragTable.lookup (FragTable.removeKey tbl k) k = none := by
  induction tbl with
  | nil => rfl
  | cons e tl ih =>
    unfold FragTable.removeKey FragTable.lookup at ih ⊢
    rw [List.filter_cons]
    by_cases h : e.1 = k
    · rw [if_neg (by simp [h])]
      exact ih
    · rw [if_pos (by simp [h])]
      rw [List.find?_cons_of_neg _ (by simp [h])]
      exact ih

theorem lookup_append_single (tbl : FragTable) (k : Nat) (v : FragmentedPacket)
    (h : tbl.any (fun e => e.1 == k) = false) :
    FragTable.lookup (tbl ++ [(k, v)]) k = some v := by
  induction tbl with
  | nil => simp [FragTable.lookup]
  | cons e tl ih =>
    simp only [List.any_cons, Bool.or_eq_false_iff] at h
    unfold FragTable.lookup at ih ⊢
    rw [List.cons_append, List.find?_cons_of_neg _ (by simp [h.1])]
    exact ih h.2

theorem lookup_map_replace (tbl : FragTable) (k : Nat) (v : FragmentedPacket)
    (hany : tbl.any (fun e => e.1 == k) = true) :
    FragTable.lookup (tbl.map (fun e => if e.1 == k then (k, v) else e)) k
      = some v := by
  induction tbl with
  | nil => simp at hany
  | cons e tl ih =>
    by_cases h : e.1 = k
    · unfold FragTable.lookup
      rw [List.map_cons, if_pos (by simp [h])]
      rw [List.find?_cons_of_pos _ (by simp)]
      rfl
    · have h' : (e.1 == k) = false := by simp [h]
      simp only [List.any_cons, h', Bool.false_or] at hany
      unfold FragTable.lookup at ih ⊢
      rw [List.map_cons, if_neg (by simp [h])]
      rw [List.find?_cons_of_neg _ (by simp [h])]
      exact ih hany

theorem lookup_upsert (tbl : FragTable) (k : Nat) (v : FragmentedPacket) :
    FragTable.lookup (FragTable.upsert tbl k v) k = some v := by
  unfold FragTable.upsert
  by_cases hany : tbl.any (fun e => e.1 == k) = true
  · rw [if_pos hany]
    exact lookup_map_replace tbl k v hany
  · rw [if_neg hany]
    exact lookup_append_single tbl k v (Bool.eq_false_iff.mpr hany)

theorem evictOldest_length {bound : Nat} {tbl : FragTable}
    (hnodup : (FragTable.keys tbl).Nodup) (hover : bound < tbl.length) :
    (evictOldest bound tbl).length = tbl.length - tbl.length / 3 := by
  obtain ⟨hRnd, hRmem, hRlen⟩ := oldestKeys_facts hnodup
  unfold evictOldest
  rw [if_pos hover]
  rw [show ((sortEntries (tbl.map (fun f => (f.2.ts_ticks, f.1)))).take
        (tbl.length / 3)).foldl (fun acc e => FragTable.removeKey acc e.2) tbl
      = (((sortEntries (tbl.map (fun f => (f.2.ts_ticks, f.1)))).take
          (tbl.length / 3)).map (fun p => p.2)).foldl
            (fun acc k' => FragTable.removeKey acc k') tbl from
    (List.foldl_map _ _ _ _).symm]
  rw [show List.take (tbl.length / 3)
      (sortEntries (tbl.map (fun f => (f.2.ts_ticks, f.1)))) = oldestEntries tbl from rfl]
  rw [foldl_removeKey_length _ tbl hnodup hRnd hRmem, hRlen]

theorem mem_evictOldest {bound : Nat} {tbl : FragTable} {e : Nat × FragmentedPacket}
    (hover : bound < tbl.length) (he : e ∈ evictOldest bound tbl) :
    e ∈ tbl ∧ e.1 ∉ (oldestEntries tbl).map (fun p => p.2) := by
  rw [evictOldest_over hover] at he
  have h := List.mem_filter.mp he
  exact ⟨h.1, by simpa using h.2⟩

theorem oldest_not_in_evicted {bound : Nat} {tbl : FragTable}
    (hover : bound < tbl.length) :
    ∀ r ∈ oldestEntries tbl, r.2 ∉ FragTable.keys (evictOldest bound tbl) := by
  intro r hr hmem
  obtain ⟨e, he, hfst⟩ := List.mem_map.mp hmem
  obtain ⟨-, hnotin⟩ := mem_evictOldest hover he
  exact hnotin (hfst ▸ List.mem_map_of_mem (fun p => p.2) hr)

theorem oldest_le_survivors {bound : Nat} {tbl : FragTable}
    (hover : bound < tbl.length) :
    ∀ r ∈ oldestEntries tbl, ∀ e ∈ evictOldest bound tbl, r.1 ≤ e.2.ts_ticks := by
  intro r hr e he
  obtain ⟨heT, hnotin⟩ := mem_evictOldest hover he
  have hperm := List.perm_insertionSort (fun a b : Int × Nat => a.1 ≤ b.1)
    (tbl.map (fun f => (f.2.ts_ticks, f.1)))
  have hp : (e.2.ts_ticks, e.1)
      ∈ sortEntries (tbl.map (fun f => (f.2.ts_ticks, f.1))) :=
    hperm.symm.subset (List.mem_map_of_mem _ heT)
  rw [← List.take_append_drop (tbl.length / 3)
    (sortEntries (tbl.map (fun f => (f.2.ts_ticks, f.1))))] at hp
  rcases List.mem_append.mp hp with hin | hin
  · exact absurd (List.mem_map_of_mem (fun p => p.2) hin) hnotin
  · have hs : List.Sorted (fun a b : Int × Nat => a.1 ≤ b.1)
        (sortEntries (tbl.map (fun f => (f.2.ts_ticks, f.1)))) :=
      List.sorted_insertionSort _ _
    rw [← List.take_append_drop (tbl.length / 3)
      (sortEntries (tbl.map (fun f => (f.2.ts_ticks, f.1))))] at hs
    exact (List.pairwise_append.mp hs).2.2 r hr (e.2.ts_ticks, e.1) hin

theorem receive_fragment_eq (bound : Nat) (st : PathState)
    (pid no exp : Nat) (pkt : Packet) (t : Int) :
    Path.receive_fragment bound st pid no exp pkt t =
      ({ st with fragmented_packets :=
          (processFragment (evictOldest bound st.fragmented_packets)
            pid no exp pkt t).1 },
        (processFragment (evictOldest bound st.fragmented_packets)
          pid no exp pkt t).2) := rfl

theorem processFragment_cases (tbl : FragTable) (pid no exp : Nat)
    (pkt : Packet) (t : Int) :
    processFragment tbl pid no exp pkt t =
      if (((FragTable.lookup tbl pid).getD
            (FragmentedPacket.new t)).add_fragment pkt no exp).2 then
        (FragTable.removeKey
          (FragTable.upsert tbl pid
            (((FragTable.lookup tbl pid).getD
              (FragmentedPacket.new t)).add_fragment pkt no exp).1) pid,
          some (((FragTable.lookup tbl pid).getD
            (FragmentedPacket.new t)).add_fragment pkt no exp).1)
      else
        (FragTable.upsert tbl pid
          (((FragTable.lookup tbl pid).getD
            (FragmentedPacket.new t)).add_fragment pkt no exp).1, none) := rfl

/-- C4: when the reassembly table holds strictly more than the sanity bound,
`receive_fragment` removes exactly `len / 3` entries — a set whose creation
times are all at most those of every surviving entry (ties broken by the
sort) — and never rejects the operation: the fragment is always fed into the
new or updated assembly for the given packet identifier, which either stays
in the table (`none` returned) or is returned completed. -/
theorem C4_eviction_policy (bound : Nat) (st : PathState) (pid no exp : Nat)
    (pkt : Packet) (t : Int)
    (hnodup : (FragTable.keys st.fragmented_packets).Nodup)
    (hover : bound < st.fragmented_packets.length) :
    ((evictOldest bound st.fragmented_packets).length
        = st.fragmented_packets.length - st.fragmented_packets.length / 3) ∧
    ((oldestEntries st.fragmented_packets).length
        = st.fragmented_packets.length / 3) ∧
    (∀ r ∈ oldestEntries st.fragmented_packets,
      r.2 ∉ FragTable.keys (evictOldest bound st.fragmented_packets)) ∧
    (∀ r ∈ oldestEntries st.fragmented_packets,
      ∀ e ∈ evictOldest bound st.fragmented_packets, r.1 ≤ e.2.ts_ticks) ∧
    ((Path.receive_fragment bound st pid no exp pkt t).2 = none →
      FragTable.lookup
          (Path.receive_fragment bound st pid no exp pkt t).1.fragmented_packets pid
        = some (((FragTable.lookup (evictOldest bound st.fragmented_packets) pid).getD
            (FragmentedPacket.new t)).add_fragment pkt no exp).1) ∧
    (∀ fp, (Path.receive_fragment bound st pid no exp pkt t).2 = some fp →
      fp = (((FragTable.lookup (evictOldest bound st.fragmented_packets) pid).getD
          (FragmentedPacket.new t)).add_fragment pkt no exp).1) := by
  obtain ⟨hRnd, hRmem, hRlen⟩ := oldestKeys_facts hnodup
  refine ⟨evictOldest_length hnodup hover, ?_, oldest_not_in_evicted hover,
    oldest_le_survivors hover, ?_, ?_⟩
  · rw [← hRlen, List.length_map]
  · intro hres
    rw [receive_fragment_eq, processFragment_cases] at hres ⊢
    by_cases hb : (((FragTable.lookup (evictOldest bound st.fragmented_packets) pid).getD
        (FragmentedPacket.new t)).add_fragment pkt no exp).2
    · rw [if_pos hb] at hres
      exact absurd hres (by simp)
    · rw [if_neg hb]
      exact lookup_upsert _ pid _
  · intro fp hfp
    rw [receive_fragment_eq, processFragment_cases] at hfp
    by_cases hb : (((FragTable.lookup (evictOldest bound st.fragmented_packets) pid).getD
        (FragmentedPacket.new t)).add_fragment pkt no exp).2
    · rw [if_pos hb] at hfp
      simpa using hfp.symm
    · rw [if_neg hb] at hfp
      exact absurd hfp (by simp)

/-- Witness for C4 on a four-entry table over bound 2: one entry (4/3 = 1)
is evicted and it is the oldest one. -/
theorem C4_eviction_policy_witness :
    (evictOldest 2 tbl4).length = tbl4.length - tbl4.length / 3 :=
  (C4_eviction_policy 2 (pathSt 0 0 0 tbl4) 99 0 2 7 1000 (by decide) (by decide)).1

/-! ### C5: the fragment assembly lifecycle -/

theorem evictOldest_le {bound : Nat} {tbl : FragTable} (h : tbl.length ≤ bound) :
    evictOldest bound tbl = tbl := by
  unfold evictOldest
  rw [if_neg (by omega)]

theorem any_map_key (packetOf : Nat → Packet) (l : List Nat) (n : Nat) :
    ((l.map (fun m => (m, packetOf m))).any (fun f => f.1 == n))
      = l.any (fun m => m == n) := by
  induction l with
  | nil => rfl
  | cons a l ih => simp [List.any_cons, ih]

theorem fragsOf_hasKey (packetOf : Nat → Packet) (l : List Nat) (n : Nat) :
    ((fragsOf packetOf l).any (fun f => f.1 == n)) = l.any (fun m => m == n) := by
  unfold fragsOf
  rw [any_map_key, List.any_reverse]

theorem any_beq_eq_false_iff (l : List Nat) (n : Nat) :
    (l.any (fun m => m == n) = false) ↔ n ∉ l := by
  rw [Bool.eq_false_iff, ne_eq, List.any_eq_true]
  constructor
  · intro h hmem
    exact h ⟨n, hmem, by simp⟩
  · rintro h ⟨x, hx, hxe⟩
    rw [beq_iff_eq] at hxe
    exact h (hxe ▸ hx)

theorem fragsOf_append (packetOf : Nat → Packet) (l : List Nat) (n : Nat) :
    fragsOf packetOf (l ++ [n]) = (n, packetOf n) :: fragsOf packetOf l := by
  unfold fragsOf
  simp

theorem receive_fragment_empty (bound : Nat) (st : PathState) (pid n exp : Nat)
    (pkt : Packet) (t : Int) (hempty : st.fragmented_packets = []) :
    Path.receive_fragment bound st pid n exp pkt t =
      if (decide (0 < exp) && (List.range exp).all
            (fun i => [(n, pkt)].any (fun f => f.1 == i))) then
        ({ st with fragmented_packets := [] }, some ⟨t, [(n, pkt)], exp⟩)
      else
        ({ st with fragmented_packets := [(pid, ⟨t, [(n, pkt)], exp⟩)] }, none) := by
  rw [receive_fragment_eq, processFragment_cases, hempty]
  rw [show evictOldest bound ([] : FragTable) = [] from rfl]
  rw [show FragTable.lookup ([] : FragTable) pid = none from rfl]
  simp only [Option.getD_none]
  rw [show ((FragmentedPacket.new t).add_fragment pkt n exp)
      = ((⟨t, [(n, pkt)], exp⟩ : FragmentedPacket),
          decide (0 < exp) && (List.range exp).all
            (fun i => [(n, pkt)].any (fun f => f.1 == i))) from rfl]
  rw [show FragTable.upsert ([] : FragTable) pid
        (⟨t, [(n, pkt)], exp⟩ : FragmentedPacket)
      = [(pid, (⟨t, [(n, pkt)], exp⟩ : FragmentedPacket))] from rfl]
  have hrm : FragTable.removeKey
      [(pid, (⟨t, [(n, pkt)], exp⟩ : FragmentedPacket))] pid = [] := by
    simp [FragTable.removeKey]
  rw [hrm]
  split <;> rfl

theorem receive_fragment_single (bound : Nat) (st : PathState) (pid n exp : Nat)
    (pkt : Packet) (t : Int) (fp : FragmentedPacket)
    (hb : 1 ≤ bound)
    (htbl : st.fragmented_packets = [(pid, fp)])
    (hnot : fp.frags.any (fun f => f.1 == n) = false) :
    Path.receive_fragment bound st pid n exp pkt t =
      if (decide (0 < exp) && (List.range exp).all
            (fun i => ((n, pkt) :: fp.frags).any (fun f => f.1 == i))) then
        ({ st with fragmented_packets := [] },
          some ⟨fp.ts_ticks, (n, pkt) :: fp.frags, exp⟩)
      else
        ({ st with fragmented_packets :=
            [(pid, ⟨fp.ts_ticks, (n, pkt) :: fp.frags, exp⟩)] }, none) := by
  rw [receive_fragment_eq, processFragment_cases, htbl]
  rw [evictOldest_le (by simp [hb])]
  have hlook : FragTable.lookup [(pid, fp)] pid = some fp := by
    simp [FragTable.lookup]
  rw [hlook]
  simp only [Option.getD_some]
  have hadd : fp.add_fragment pkt n exp
      = ((⟨fp.ts_ticks, (n, pkt) :: fp.frags, exp⟩ : FragmentedPacket),
          decide (0 < exp) && (List.range exp).all
            (fun i => ((n, pkt) :: fp.frags).any (fun f => f.1 == i))) := by
    unfold FragmentedPacket.add_fragment
    simp [hnot]
  rw [hadd]
  have hup : FragTable.upsert [(pid, fp)] pid
        (⟨fp.ts_ticks, (n, pkt) :: fp.frags, exp⟩ : FragmentedPacket)
      = [(pid, (⟨fp.ts_ticks, (n, pkt) :: fp.frags, exp⟩ : FragmentedPacket))] := by
    simp [FragTable.upsert]
  rw [hup]
  have hrm : FragTable.removeKey
      [(pid, (⟨fp.ts_ticks, (n, pkt) :: fp.frags, exp⟩ : FragmentedPacket))] pid
      = [] := by
    simp [FragTable.removeKey]
  rw [hrm]
  split <;> rfl

theorem single_frag_incomplete (n' : Nat) (pkt' : Packet) (exp : Nat) (h2 : 2 ≤ exp) :
    (decide (0 < exp) && (List.range exp).all
      (fun i => [(n', pkt')].any (fun f => f.1 == i))) = false := by
  apply Bool.eq_false_iff.mpr
  intro hc
  rw [Bool.and_eq_true, List.all_eq_true] at hc
  by_cases h0 : n' = 0
  · have := hc.2 1 (by rw [List.mem_range]; omega)
    simp [h0] at this
  · have := hc.2 0 (by rw [List.mem_range]; omega)
    simp [h0] at this

theorem feed_invariant (bound pid exp : Nat) (packetOf : Nat → Packet) (t : Int)
    (hb : 1 ≤ bound) :
    ∀ (rest done : List Nat) (st : PathState),
      rest ≠ [] →
      (done ++ rest).Perm (List.range exp) →
      st.fragmented_packets = [(pid, ⟨t, fragsOf packetOf done, exp⟩)] →
      (feedFragments bound pid exp packetOf t st rest).1.fragmented_packets = [] ∧
      (feedFragments bound pid exp packetOf t st rest).2
        = List.replicate (rest.length - 1) none
            ++ [some ⟨t, fragsOf packetOf (done ++ rest), exp⟩] := by
  intro rest
  induction rest with
  | nil => intro done st hne; exact absurd rfl hne
  | cons n rest' ih =>
    intro done st _ hperm htbl
    have hnd : (done ++ n :: rest').Nodup := hperm.nodup_iff.mpr (List.nodup_range exp)
    have hnotdone : n ∉ done := by
      rcases List.nodup_append.mp hnd with ⟨-, -, hdisj⟩
      intro hmem
      exact hdisj hmem (by simp)
    have hanyfalse : (fragsOf packetOf done).any (fun f => f.1 == n) = false := by
      rw [fragsOf_hasKey]
      exact (any_beq_eq_false_iff done n).mpr hnotdone
    have hstep := receive_fragment_single bound st pid n exp (packetOf n) t
      ⟨t, fragsOf packetOf done, exp⟩ hb htbl hanyfalse
    have hfrag : ((n, packetOf n) :: fragsOf packetOf done)
        = fragsOf packetOf (done ++ [n]) := (fragsOf_append packetOf done n).symm
    cases rest' with
    | nil =>
      have hperm' : (done ++ [n]).Perm (List.range exp) := hperm
      have hcomp : (decide (0 < exp) && (List.range exp).all
          (fun i => ((n, packetOf n) :: fragsOf packetOf done).any
            (fun f => f.1 == i))) = true := by
        rw [Bool.and_eq_true]
        constructor
        · have hl : (done ++ [n]).length = exp := by
            simpa using hperm'.length_eq
          simp only [List.length_append, List.length_singleton] at hl
          simp only [decide_eq_true_eq]
          omega
        · rw [List.all_eq_true]
          intro i hi
          have himem : i ∈ done ++ [n] := hperm'.symm.subset hi
          rw [hfrag, fragsOf_hasKey, List.any_eq_true]
          exact ⟨i, himem, by simp⟩
      simp only [feedFragments]
      rw [hstep, if_pos hcomp]
      refine ⟨rfl, ?_⟩
      simp [hfrag]
    | cons m rest'' =>
      have hmmem : m ∈ List.range exp := hperm.subset (by simp)
      have hmnot : m ∉ done ++ [n] := by
        rcases List.nodup_append.mp hnd with ⟨-, hd2, hdisj⟩
        rw [List.mem_append, List.mem_singleton]
        rintro (hmem | heq)
        · exact hdisj hmem (by simp)
        · rw [List.nodup_cons] at hd2
          exact hd2.1 (heq ▸ (by simp : m ∈ m :: rest''))
      have hincomp : (decide (0 < exp) && (List.range exp).all
          (fun i => ((n, packetOf n) :: fragsOf packetOf done).any
            (fun f => f.1 == i))) = false := by
        apply Bool.eq_false_iff.mpr
        intro hc
        rw [Bool.and_eq_true, List.all_eq_true] at hc
        have hm := hc.2 m hmmem
        rw [hfrag, fragsOf_hasKey, List.any_eq_true] at hm
        obtain ⟨x, hx, hxe⟩ := hm
        rw [beq_iff_eq] at hxe
        exact hmnot (hxe ▸ hx)
      simp only [feedFragments]
      rw [hstep, if_neg (Bool.eq_false_iff.mp hincomp)]
      have happ : ((done ++ [n]) ++ (m :: rest'')).Perm (List.range exp) := by
        simpa [List.append_assoc] using hperm
      obtain ⟨hst, hres⟩ := ih (done ++ [n])
        ({ st with fragmented_packets :=
            [(pid, ⟨t, (n, packetOf n) :: fragsOf packetOf done, exp⟩)] })
        (List.cons_ne_nil _ _) happ (by simp [hfrag])
      refine ⟨hst, ?_⟩
      show none :: (feedFragments bound pid exp packetOf t
          ({ st with fragmented_packets :=
            [(pid, ⟨t, (n, packetOf n) :: fragsOf packetOf done, exp⟩)] })
          (m :: rest'')).2
        = List.replicate ((n :: m :: rest'').length - 1) none
            ++ [some ⟨t, fragsOf packetOf (done ++ n :: m :: rest''), exp⟩]
      rw [hres]
      rw [show (n :: m :: rest'').length - 1 = rest''.length + 1 by simp]
      rw [show (m :: rest'').length - 1 = rest''.length by simp]
      rw [List.replicate_succ]
      simp [List.append_assoc]

/-- C5: feeding `exp` fragments with distinct numbers `0..exp-1` (in any
order) and expected count `exp` for one packet identifier into an (initially
empty) reassembly table returns no completed packet on each of the first
`exp - 1` calls, returns the assembled packet exactly once on the completing
call, and leaves the identifier absent from the table afterward; a fragment
arriving later with the same identifier starts a fresh, independent
assembly. -/
theorem C5_fragment_lifecycle (bound exp : Nat) (st : PathState) (pid : Nat)
    (packetOf : Nat → Packet) (t : Int) (order : List Nat)
    (n' : Nat) (pkt' : Packet) (t' : Int)
    (hb : 1 ≤ bound) (hexp : 1 ≤ exp)
    (hempty : st.fragmented_packets = [])
    (hperm : order.Perm (List.range exp)) :
    ((feedFragments bound pid exp packetOf t st order).2
      = List.replicate (exp - 1) none
          ++ [some ⟨t, fragsOf packetOf order, exp⟩]) ∧
    ((feedFragments bound pid exp packetOf t st order).1.fragmented_packets = []) ∧
    (2 ≤ exp →
      Path.receive_fragment bound (feedFragments bound pid exp packetOf t st order).1
          pid n' exp pkt' t'
        = ({ (feedFragments bound pid exp packetOf t st order).1 with
              fragmented_packets := [(pid, ⟨t', [(n', pkt')], exp⟩)] }, none)) := by
  have hlen : order.length = exp := by simpa using hperm.length_eq
  cases order with
  | nil =>
    simp only [List.length_nil] at hlen
    omega
  | cons n rest =>
    have hstep := receive_fragment_empty bound st pid n exp (packetOf n) t hempty
    cases rest with
    | nil =>
      have hexp1 : exp = 1 := by simpa using hlen.symm
      subst hexp1
      have hn0 : n = 0 := by
        have hmem : n ∈ List.range 1 := hperm.subset (by simp)
        simpa using hmem
      subst hn0
      simp only [feedFragments]
      rw [hstep, if_pos (by simp)]
      refine ⟨by simp [fragsOf], rfl, ?_⟩
      intro h2
      omega
    | cons m rest' =>
      have hnd : (n :: m :: rest').Nodup := hperm.nodup_iff.mpr (List.nodup_range exp)
      have hmmem : m ∈ List.range exp := hperm.subset (by simp)
      have hmne : m ≠ n := by
        rw [List.nodup_cons] at hnd
        intro h
        exact hnd.1 (h ▸ (by simp : m ∈ m :: rest'))
      have hincomp : (decide (0 < exp) && (List.range exp).all
          (fun i => [(n, packetOf n)].any (fun f => f.1 == i))) = false := by
        apply Bool.eq_false_iff.mpr
        intro hc
        rw [Bool.and_eq_true, List.all_eq_true] at hc
        have hm := hc.2 m hmmem
        simp only [List.any_cons, List.any_nil, Bool.or_false, beq_iff_eq] at hm
        exact hmne hm.symm
      simp only [feedFragments]
      rw [hstep, if_neg (Bool.eq_false_iff.mp hincomp)]
      obtain ⟨hst, hres⟩ := feed_invariant bound pid exp packetOf t hb (m :: rest') [n]
        ({ st with fragmented_packets := [(pid, ⟨t, [(n, packetOf n)], exp⟩)] })
        (List.cons_ne_nil _ _) (by simpa using hperm) rfl
      refine ⟨?_, hst, ?_⟩
      · show none :: (feedFragments bound pid exp packetOf t
            ({ st with fragmented_packets := [(pid, ⟨t, [(n, packetOf n)], exp⟩)] })
            (m :: rest')).2
          = List.replicate (exp - 1) none
              ++ [some ⟨t, fragsOf packetOf (n :: m :: rest'), exp⟩]
        rw [hres]
        rw [show exp - 1 = rest'.length + 1 by simp at hlen; omega]
        rw [show (m :: rest').length - 1 = rest'.length by simp]
        rw [List.replicate_succ]
        simp
      · intro h2
        have hstep2 := receive_fragment_empty bound _ pid n' exp pkt' t' hst
        show Path.receive_fragment bound
            (feedFragments bound pid exp packetOf t
              ({ st with fragmented_packets := [(pid, ⟨t, [(n, packetOf n)], exp⟩)] })
              (m :: rest')).1 pid n' exp pkt' t'
          = ({ (feedFragments bound pid exp packetOf t
                ({ st with fragmented_packets := [(pid, ⟨t, [(n, packetOf n)], exp⟩)] })
                (m :: rest')).1 with
                  fragmented_packets := [(pid, ⟨t', [(n', pkt')], exp⟩)] }, none)
        rw [hstep2, if_neg (Bool.eq_false_iff.mp (single_frag_incomplete n' pkt' exp h2))]

/-- Witness for C5: two fragments fed out of order (1 then 0) with expected
count 2 complete exactly on the second call. -/
theorem C5_fragment_lifecycle_witness :
    (feedFragments 1 5 2 (fun n => n + 100) 50 (pathSt 0 0 0 []) [1, 0]).2
      = [none, some ⟨50, [(0, 100), (1, 101)], 2⟩] :=
  (C5_fragment_lifecycle 1 2 (pathSt 0 0 0 []) 5 (fun n => n + 100) 50 [1, 0]
    1 9 60 (by decide) (by decide) rfl (by decide)).1

end ZT
